import Mathlib

/-!
Verification of the JinrikiHelper export plugins (utau_oto_export.py,
simple_export.py) against their natural-language specification.

The Python source is shallowly embedded: times are exact rationals (ℚ,
milliseconds or seconds as in the source), audio buffers are lists of
rational samples, and Python's `round(x, 1)` is modelled as
round-half-even on exact rationals.  Each embedded definition mirrors one
Python function and keeps its name.
-/

namespace Jinriki

/-- Round half to even on rationals (the tie-breaking rule of Python's
built-in `round`); at non-tie points every reasonable rounding agrees. -/
def rhe (q : ℚ) : ℤ :=
  if q - ⌊q⌋ < 1/2 then ⌊q⌋
  else if 1/2 < q - ⌊q⌋ then ⌊q⌋ + 1
  else if ⌊q⌋ % 2 = 0 then ⌊q⌋ else ⌊q⌋ + 1

/-- Python `round(x, 1)` on exact rationals. -/
def round1 (q : ℚ) : ℚ := (rhe (10 * q) : ℚ) / 10

/-- A labeled TextGrid interval (`interval.mark`, `interval.minTime`,
`interval.maxTime`), times in seconds. -/
structure Iv where
  mark : String
  minTime : ℚ
  maxTime : ℚ
deriving DecidableEq, Repr

/-- `SKIP_MARKS` from utau_oto_export.py. -/
def SKIP_MARKS : List String := ["", "SP", "AP", "<unk>", "spn", "sil"]

/-- Tone marks removed by `_strip_tone`. -/
def toneMarks : List Char := ['˥', '˦', '˧', '˨', '˩', 'ˇ', 'ˊ', 'ˋ', '¯']

/-- `_strip_tone`: remove every tone-mark character (each Python
`str.replace` removes a single character, so this is a filter). -/
def stripTone (s : String) : String :=
  ⟨s.data.filter (fun c => !(toneMarks.contains c))⟩

/-- `CHINESE_CONSONANTS` (note: the three medials j, w, ɥ are members). -/
def CHINESE_CONSONANTS : List String :=
  ["p", "pʰ", "pʲ", "pʷ", "b", "m", "f",
   "t", "tʰ", "tʲ", "d", "n", "l",
   "k", "kʰ", "kʷ", "ɡ", "g", "ŋ", "x", "h",
   "tɕ", "tɕʰ", "dʑ", "ɕ", "ʑ",
   "ts", "tsʰ", "dz", "s", "z",
   "ʈʂ", "ʈʂʰ", "ɖʐ", "ʂ", "ʐ",
   "ɲ", "j", "w", "ɥ",
   "ʔ"]

/-- `CHINESE_VOWELS`. -/
def CHINESE_VOWELS : List String :=
  ["a", "o", "e", "i", "u", "y", "ü",
   "ə", "ɛ", "ɔ", "ɤ", "ɨ", "ʅ", "ʉ",
   "aw", "ej", "ow",
   "z̩", "ʐ̩",
   "ɻ",
   "ɚ"]

/-- `CHINESE_MEDIALS`. -/
def CHINESE_MEDIALS : List String := ["j", "w", "ɥ"]

/-- `CHINESE_CODAS`. -/
def CHINESE_CODAS : List String := ["n", "ŋ", "i", "u"]

/-- `JAPANESE_CONSONANTS`. -/
def JAPANESE_CONSONANTS : List String :=
  ["p", "b", "m", "ɸ",
   "t", "d", "n", "s", "z", "ɾ", "r",
   "k", "ɡ", "g", "ŋ", "h",
   "tɕ", "dʑ", "ɕ", "ʑ",
   "ts", "dz",
   "ɲ", "j", "w",
   "nː", "sː", "tː", "kː", "pː"]

/-- `JAPANESE_VOWELS`. -/
def JAPANESE_VOWELS : List String :=
  ["a", "i", "ɯ", "u", "e", "o",
   "aː", "iː", "ɯː", "uː", "eː", "oː"]

/-- The vowel-letter list used by `is_vowel` for Chinese. -/
def vowelStarts : List String :=
  ["a", "o", "e", "i", "u", "y", "ə", "ɛ", "ɔ", "ɤ", "ɨ", "ʅ", "ʉ", "ɚ"]

/-- Is `needle` a contiguous sub-list of `hay` (Python `in` on strings)? -/
def subList (needle : List Char) : List Char → Bool
  | [] => needle.isEmpty
  | c :: rest => needle.isPrefixOf (c :: rest) || subList needle rest

/-- Python `needle in hay` for strings. -/
def strContains (hay needle : String) : Bool := subList needle.data hay.data

/-- Drop trailing copies of `c` (Python `str.rstrip` on one character). -/
def rstripChar (c : Char) (s : String) : String :=
  ⟨(s.data.reverse.dropWhile (fun x => x == c)).reverse⟩

/-- The two supported language branches (`language in ('chinese','zh','mandarin')`
versus the Japanese branch). -/
inductive Lang where
  | zh : Lang
  | ja : Lang
deriving DecidableEq, Repr

/-- `is_consonant(phone, language)`. -/
def is_consonant (phone : String) (language : Lang) : Bool :=
  let base := stripTone phone
  match language with
  | .zh => CHINESE_CONSONANTS.contains base
  | .ja => JAPANESE_CONSONANTS.contains base

/-- The short Japanese vowel bases used by `is_vowel`'s rstrip fallback. -/
def jaShortVowels : List String := ["a", "i", "ɯ", "u", "e", "o"]

/-- `is_vowel(phone, language)`. -/
def is_vowel (phone : String) (language : Lang) : Bool :=
  let base := stripTone phone
  match language with
  | .zh =>
      CHINESE_VOWELS.contains base
      || vowelStarts.any (fun v => base.startsWith v)
      || strContains base "z̩" || strContains base "ʐ̩"
      || strContains base "ɻ"
  | .ja =>
      JAPANESE_VOWELS.contains base || jaShortVowels.contains (rstripChar 'ː' base)

/-- Build `word_ranges` from the words tier: keep intervals whose stripped
mark is non-empty and not a skip mark. -/
def buildWordRanges (words : List Iv) : List (ℚ × ℚ) :=
  words.filterMap (fun iv =>
    let text := iv.mark.trim
    if text ≠ "" ∧ ¬ SKIP_MARKS.contains text then some (iv.minTime, iv.maxTime)
    else none)

/-- `get_word_range(time)`: first range with `start <= time < end`. -/
def getWordRange (ranges : List (ℚ × ℚ)) (t : ℚ) : Option (ℚ × ℚ) :=
  ranges.find? (fun r => decide (r.1 ≤ t) && decide (t < r.2))

/-- `same_word(time1, time2)`: true when no word ranges exist, else both
times must fall inside the same range. -/
def sameWord (ranges : List (ℚ × ℚ)) (t1 t2 : ℚ) : Bool :=
  if ranges.isEmpty then true
  else
    match getWordRange ranges t1, getWordRange ranges t2 with
    | some r1, some r2 => decide (r1 = r2)
    | _, _ => false

/-- An oto entry: the dict built by `_calculate_oto_params` /
`_calculate_vc_params` / `_combine_and_save`.  `offset`, `consonant`,
`cutoff`, `preutterance`, `overlap` are stored rounded to one decimal;
`segment_duration` is stored unrounded. -/
structure OtoEntry where
  wav_name : String
  aliasStr : String
  offset : ℚ
  consonant : ℚ
  cutoff : ℚ
  preutterance : ℚ
  overlap : ℚ
  segment_duration : ℚ
  is_vc : Bool := false
  is_combined : Bool := false
  quality_score : ℚ := 0
deriving DecidableEq, Repr

/-- `_calculate_oto_params`. -/
def calculate_oto_params (wav_name aliasStr : String)
    (offset consonant_duration segment_end wav_duration_ms overlap_ratio : ℚ) :
    OtoEntry :=
  let _ := wav_duration_ms
  let segment_duration := segment_end - offset
  let preutterance := consonant_duration
  let overlap := preutterance * overlap_ratio
  let cutoff := -segment_duration
  { wav_name := wav_name
    aliasStr := aliasStr
    offset := round1 offset
    consonant := round1 consonant_duration
    cutoff := round1 cutoff
    preutterance := round1 preutterance
    overlap := round1 overlap
    segment_duration := segment_duration }

/-- `_calculate_vc_params`. -/
def calculate_vc_params (wav_name aliasStr : String)
    (vowel_start_ms vowel_end_ms consonant_end_ms wav_duration_ms
     vc_offset_ratio vc_overlap_ratio : ℚ) : OtoEntry :=
  let _ := wav_duration_ms
  let vowel_duration := vowel_end_ms - vowel_start_ms
  let offset := vowel_end_ms - vowel_duration * vc_offset_ratio
  let segment_duration := consonant_end_ms - offset
  let preutterance := vowel_end_ms - offset
  let consonant := min 30 (segment_duration * (0.3 : ℚ))
  let overlap := preutterance * vc_overlap_ratio
  let cutoff := -segment_duration
  { wav_name := wav_name
    aliasStr := aliasStr
    offset := round1 offset
    consonant := round1 consonant
    cutoff := round1 cutoff
    preutterance := round1 preutterance
    overlap := round1 overlap
    segment_duration := segment_duration
    is_vc := true }

/-- `CHINESE_CONSONANT_TO_PINYIN`. -/
def CHINESE_CONSONANT_TO_PINYIN : List (String × String) :=
  [("p", "b"), ("pʰ", "p"), ("pʲ", "p"), ("pʷ", "b"),
   ("m", "m"), ("f", "f"),
   ("t", "d"), ("tʰ", "t"), ("tʲ", "d"),
   ("n", "n"), ("l", "l"),
   ("k", "g"), ("kʰ", "k"), ("kʷ", "g"),
   ("ɡ", "g"), ("g", "g"),
   ("x", "h"), ("h", "h"),
   ("tɕ", "j"), ("tɕʰ", "q"), ("ɕ", "x"),
   ("ts", "z"), ("tsʰ", "c"), ("s", "s"),
   ("ʈʂ", "zh"), ("ʈʂʰ", "ch"), ("ʂ", "sh"), ("ʐ", "r"),
   ("ɲ", "n"), ("ŋ", ""),
   ("j", ""), ("w", ""), ("ɥ", ""),
   ("ʔ", "")]

/-- `CHINESE_VOWEL_TO_PINYIN`. -/
def CHINESE_VOWEL_TO_PINYIN : List (String × String) :=
  [("a", "a"), ("o", "o"), ("e", "e"), ("i", "i"), ("u", "u"), ("y", "v"), ("ü", "v"),
   ("ə", "e"), ("ɛ", "e"), ("ɔ", "o"), ("ɤ", "e"), ("ɨ", "i"),
   ("aj", "ai"), ("aw", "ao"), ("ej", "ei"), ("ow", "ou"),
   ("ai", "ai"), ("ao", "ao"), ("ei", "ei"), ("ou", "ou"),
   ("ja", "ia"), ("je", "ie"), ("jɛ", "ie"), ("jao", "iao"), ("jow", "iu"), ("ju", "iu"),
   ("ia", "ia"), ("ie", "ie"), ("iao", "iao"), ("iu", "iu"),
   ("wa", "ua"), ("wo", "uo"), ("wɔ", "uo"), ("wej", "ui"), ("waj", "uai"),
   ("ua", "ua"), ("uo", "uo"), ("ui", "ui"), ("uai", "uai"),
   ("ɥe", "ve"), ("ɥɛ", "ve"),
   ("ve", "ve"), ("yue", "ve"),
   ("an", "an"), ("en", "en"), ("ang", "ang"), ("eng", "eng"), ("ong", "ong"),
   ("in", "in"), ("ing", "ing"), ("ian", "ian"), ("iang", "iang"), ("iong", "iong"),
   ("uan", "uan"), ("un", "un"), ("uang", "uang"), ("ueng", "ueng"),
   ("van", "van"), ("vn", "vn"),
   ("z̩", "i"), ("ʐ̩", "i"), ("ʅ", "i"),
   ("ɻ", "er"), ("ɚ", "er")]

/-- The final-assembly part of `_syllable_to_pinyin` (lines 1126-1262):
combine initial `c`, medial `m`, vowel `v`, coda `cd` (all tone-stripped)
into a pinyin string. -/
def combinePinyin (c m v cd : String) : String :=
  let c_py := (CHINESE_CONSONANT_TO_PINYIN.lookup c).getD ""
  let v_py := (CHINESE_VOWEL_TO_PINYIN.lookup v).getD v
  let final :=
    if m = "j" then
      if cd = "n" then
        if v_py = "a" then "ian"
        else if v_py = "e" then "in"
        else "i" ++ v_py ++ "n"
      else if cd = "ŋ" then
        if v_py = "a" then "iang"
        else if v_py = "o" then "iong"
        else "i" ++ v_py ++ "ng"
      else if cd ≠ "" then "i" ++ v_py ++ cd
      else
        if v_py = "a" then "ia"
        else if v_py = "e" then "ie"
        else if v_py = "ao" then "iao"
        else if v_py = "ou" then "iu"
        else "i" ++ v_py
    else if m = "w" then
      if cd = "n" then
        if v_py = "a" then "uan"
        else if v_py = "e" then "un"
        else "u" ++ v_py ++ "n"
      else if cd = "ŋ" then
        if v_py = "a" then "uang"
        else if v_py = "e" then "ueng"
        else "u" ++ v_py ++ "ng"
      else if cd ≠ "" then "u" ++ v_py ++ cd
      else
        if v_py = "a" then "ua"
        else if v_py = "o" then "uo"
        else if v_py = "ei" then "ui"
        else if v_py = "ai" then "uai"
        else "u" ++ v_py
    else if m = "ɥ" then
      if cd = "n" then
        if v_py = "a" then "van"
        else if v_py = "e" then "vn"
        else "v" ++ v_py ++ "n"
      else if cd ≠ "" then "v" ++ v_py ++ cd
      else
        if v_py = "e" then "ve"
        else "v" ++ v_py
    else
      if cd = "n" then v_py ++ "n"
      else if cd = "ŋ" then v_py ++ "ng"
      else if cd ≠ "" then v_py ++ cd
      else v_py
  if c_py = "" then
    if final.startsWith "i" then
      if final = "i" then "yi"
      else if final = "in" ∨ final = "ing" then "y" ++ final
      else "y" ++ final.drop 1
    else if final.startsWith "u" then
      if final = "u" then "wu"
      else if final = "un" then "wen"
      else if final = "ueng" ∨ final = "ong" then "weng"
      else "w" ++ final.drop 1
    else if final.startsWith "v" then
      if final = "v" then "yu"
      else "yu" ++ final.drop 1
    else final
  else if c_py = "j" ∨ c_py = "q" ∨ c_py = "x" then
    if final.startsWith "v" then c_py ++ "u" ++ final.drop 1
    else c_py ++ final
  else if c_py = "n" ∨ c_py = "l" then c_py ++ final
  else
    if final.startsWith "v" then c_py ++ "u" ++ final.drop 1
    else c_py ++ final

/-- `_syllable_to_pinyin`: strip tones, re-parse the phone list as
(consonant)(medial)vowel(coda) and assemble the pinyin; `None` when no
vowel is found (`use_hiragana` is ignored for Chinese, as in the source). -/
def syllable_to_pinyin (phones : List String) (language : Lang)
    (use_hiragana : Bool) : Option String :=
  let _ := use_hiragana
  if phones = [] then none
  else
    let pb := phones.map stripTone
    let s1 : String × List String :=
      match pb with
      | p :: rest => if is_consonant p language then (p, rest) else ("", pb)
      | [] => ("", [])
    let c := s1.1
    let s2 : String × List String :=
      match s1.2 with
      | p :: rest => if CHINESE_MEDIALS.contains p then (p, rest) else ("", s1.2)
      | [] => ("", s1.2)
    let m := s2.1
    match s2.2 with
    | [] => none
    | p :: rest =>
      if is_vowel p language then
        let cd :=
          match rest with
          | q :: _ => if CHINESE_CODAS.contains q then q else ""
          | [] => ""
        some (combinePinyin c m p cd)
      else none

/-- `JAPANESE_IPA_TO_ROMAJI`. -/
def JAPANESE_IPA_TO_ROMAJI : List (String × String) :=
  [("p", "p"), ("b", "b"), ("m", "m"), ("ɸ", "f"),
   ("t", "t"), ("d", "d"), ("n", "n"), ("s", "s"), ("z", "z"), ("ɾ", "r"), ("r", "r"),
   ("k", "k"), ("ɡ", "g"), ("g", "g"), ("h", "h"),
   ("tɕ", "ch"), ("dʑ", "j"), ("ɕ", "sh"), ("ʑ", "j"),
   ("ts", "ts"), ("dz", "z"),
   ("ɲ", "ny"), ("ŋ", "ng"), ("j", "y"), ("w", "w"),
   ("nː", "n"), ("sː", "s"), ("tː", "t"), ("kː", "k"), ("pː", "p"),
   ("a", "a"), ("i", "i"), ("ɯ", "u"), ("u", "u"), ("e", "e"), ("o", "o"),
   ("aː", "a"), ("iː", "i"), ("ɯː", "u"), ("uː", "u"), ("eː", "e"), ("oː", "o")]

/-- `ROMAJI_TO_HIRAGANA`. -/
def ROMAJI_TO_HIRAGANA : List (String × String) :=
  [("a", "あ"), ("i", "い"), ("u", "う"), ("e", "え"), ("o", "お"),
   ("ka", "か"), ("ki", "き"), ("ku", "く"), ("ke", "け"), ("ko", "こ"),
   ("sa", "さ"), ("shi", "し"), ("si", "し"), ("su", "す"), ("se", "せ"), ("so", "そ"),
   ("ta", "た"), ("chi", "ち"), ("ti", "ち"), ("tsu", "つ"), ("tu", "つ"), ("te", "て"), ("to", "と"),
   ("na", "な"), ("ni", "に"), ("nu", "ぬ"), ("ne", "ね"), ("no", "の"),
   ("ha", "は"), ("hi", "ひ"), ("fu", "ふ"), ("hu", "ふ"), ("he", "へ"), ("ho", "ほ"),
   ("ma", "ま"), ("mi", "み"), ("mu", "む"), ("me", "め"), ("mo", "も"),
   ("ya", "や"), ("yu", "ゆ"), ("yo", "よ"),
   ("ra", "ら"), ("ri", "り"), ("ru", "る"), ("re", "れ"), ("ro", "ろ"),
   ("wa", "わ"), ("wo", "を"), ("n", "ん"),
   ("ga", "が"), ("gi", "ぎ"), ("gu", "ぐ"), ("ge", "げ"), ("go", "ご"),
   ("za", "ざ"), ("ji", "じ"), ("zi", "じ"), ("zu", "ず"), ("ze", "ぜ"), ("zo", "ぞ"),
   ("da", "だ"), ("di", "ぢ"), ("du", "づ"), ("de", "で"), ("do", "ど"),
   ("ba", "ば"), ("bi", "び"), ("bu", "ぶ"), ("be", "べ"), ("bo", "ぼ"),
   ("pa", "ぱ"), ("pi", "ぴ"), ("pu", "ぷ"), ("pe", "ぺ"), ("po", "ぽ"),
   ("kya", "きゃ"), ("kyu", "きゅ"), ("kyo", "きょ"),
   ("sha", "しゃ"), ("shu", "しゅ"), ("sho", "しょ"),
   ("cha", "ちゃ"), ("chu", "ちゅ"), ("cho", "ちょ"),
   ("nya", "にゃ"), ("nyu", "にゅ"), ("nyo", "にょ"),
   ("hya", "ひゃ"), ("hyu", "ひゅ"), ("hyo", "ひょ"),
   ("mya", "みゃ"), ("myu", "みゅ"), ("myo", "みょ"),
   ("rya", "りゃ"), ("ryu", "りゅ"), ("ryo", "りょ"),
   ("gya", "ぎゃ"), ("gyu", "ぎゅ"), ("gyo", "ぎょ"),
   ("ja", "じゃ"), ("ju", "じゅ"), ("jo", "じょ"),
   ("bya", "びゃ"), ("byu", "びゅ"), ("byo", "びょ"),
   ("pya", "ぴゃ"), ("pyu", "ぴゅ"), ("pyo", "ぴょ")]

/-- The character filter and lowering applied to a Japanese romaji alias
(`ipa_to_alias`, lines 400-402). -/
def cleanRomaji (s : String) : String :=
  (String.mk (s.data.filter
    (fun ch => decide (ch.toNat ≤ 127) && (ch.isAlphanum || ch == '_')))).toLower

/-- The Japanese branch of `ipa_to_alias(consonant, vowel, language,
use_hiragana)` (the Chinese branch is unused by the claims). -/
def ipa_to_alias_ja (consonant vowel : Option String) (use_hiragana : Bool) :
    Option String :=
  let c_base := match consonant with | some c => stripTone c | none => ""
  let v_base := match vowel with | some v => stripTone v | none => ""
  let c_alias := (JAPANESE_IPA_TO_ROMAJI.lookup c_base).getD c_base
  let v_alias := (JAPANESE_IPA_TO_ROMAJI.lookup v_base).getD v_base
  let romaji := cleanRomaji (c_alias ++ v_alias)
  if romaji = "" then none
  else if use_hiragana then some ((ROMAJI_TO_HIRAGANA.lookup romaji).getD romaji)
  else some romaji

/-- A syllable parsed by the Chinese branch of `_extract_cv_pairs`: the
consumed intervals together with the loop's local timing variables. -/
structure SylZh where
  anchor : Iv
  consonant : Option Iv
  medial : Option Iv
  vowel : Iv
  coda : Option Iv
  syllable_start : ℚ
  syllable_end : ℚ
  consonant_duration : ℚ
deriving DecidableEq, Repr

/-- Coda absorption (step 4 of the Chinese branch of `_extract_cv_pairs`);
`consumed` counts the phones consumed before the vowel. -/
def cvCodaZh (wr : List (ℚ × ℚ)) (anchor : Iv) (cons med : Option Iv)
    (cand : Iv) (cd : ℚ) (consumed : ℕ) (rest : List Iv) : Option SylZh × ℕ :=
  match rest with
  | w :: _ =>
    let next_phone := w.mark.trim
    if ¬ SKIP_MARKS.contains next_phone ∧ sameWord wr anchor.minTime w.minTime = true
        ∧ CHINESE_CODAS.contains (stripTone next_phone) then
      (some { anchor := anchor, consonant := cons, medial := med, vowel := cand,
              coda := some w, syllable_start := anchor.minTime * 1000,
              syllable_end := w.maxTime * 1000, consonant_duration := cd },
       consumed + 2)
    else
      (some { anchor := anchor, consonant := cons, medial := med, vowel := cand,
              coda := none, syllable_start := anchor.minTime * 1000,
              syllable_end := cand.maxTime * 1000, consonant_duration := cd },
       consumed + 1)
  | [] =>
      (some { anchor := anchor, consonant := cons, medial := med, vowel := cand,
              coda := none, syllable_start := anchor.minTime * 1000,
              syllable_end := cand.maxTime * 1000, consonant_duration := cd },
       consumed + 1)

/-- Step 3 (mandatory vowel) of the Chinese branch of `_extract_cv_pairs`:
`cand` is the current candidate phone; a zero `consonant_duration` is
re-synthesized as `min(30, 0.2 * (end_ms - start_ms))`. -/
def cvVowelZh (wr : List (ℚ × ℚ)) (anchor : Iv) (cons med : Option Iv)
    (cand : Iv) (cdIn : ℚ) (consumed : ℕ) (rest : List Iv) : Option SylZh × ℕ :=
  if is_vowel cand.mark.trim .zh then
    let cd :=
      if cdIn = 0 then
        min 30 ((cand.maxTime * 1000 - anchor.minTime * 1000) * (0.2 : ℚ))
      else cdIn
    cvCodaZh wr anchor cons med cand cd consumed rest
  else (none, consumed + 1)

/-- Step 2 (optional medial) of the Chinese branch of `_extract_cv_pairs`. -/
def cvMedialZh (wr : List (ℚ × ℚ)) (anchor : Iv) (cons : Option Iv)
    (cand : Iv) (cd : ℚ) (consumed : ℕ) (rest : List Iv) : Option SylZh × ℕ :=
  if CHINESE_MEDIALS.contains (stripTone cand.mark.trim) then
    match rest with
    | [] => (none, consumed + 1)
    | z :: rest2 =>
      if ¬ SKIP_MARKS.contains z.mark.trim ∧ sameWord wr anchor.minTime z.minTime = true then
        cvVowelZh wr anchor cons (some cand) z cd (consumed + 1) rest2
      else (none, consumed + 1)
  else cvVowelZh wr anchor cons none cand cd consumed rest

/-- One iteration of the Chinese branch of the `_extract_cv_pairs` loop,
returning the parsed syllable (if the Vowel state was reached) and the
number of list positions the cursor advances. -/
def cvStepZh (wr : List (ℚ × ℚ)) : List Iv → Option SylZh × ℕ
  | [] => (none, 1)
  | x :: rest =>
    let phone := x.mark.trim
    if SKIP_MARKS.contains phone then (none, 1)
    else if is_consonant phone .zh then
      let cd := x.maxTime * 1000 - x.minTime * 1000
      match rest with
      | [] => (none, 1)
      | y :: rest2 =>
        if ¬ SKIP_MARKS.contains y.mark.trim ∧ sameWord wr x.minTime y.minTime = true then
          cvMedialZh wr x (some x) y cd 1 rest2
        else (none, 1)
    else cvMedialZh wr x none x 0 0 rest

/-- The Chinese branch of the `_extract_cv_pairs` while-loop. -/
def cvParseZh (wr : List (ℚ × ℚ)) : List Iv → List SylZh
  | [] => []
  | x :: rest =>
    let s := cvStepZh wr (x :: rest)
    (match s.1 with | some syl => [syl] | none => []) ++
      cvParseZh wr (rest.drop (s.2 - 1))
termination_by l => l.length
decreasing_by simp only [List.length_drop, List.length_cons]; omega

/-- The `syllable_phones` list accumulated for a parsed Chinese syllable. -/
def sylZhPhones (s : SylZh) : List String :=
  (match s.consonant with | some c => [c.mark.trim] | none => []) ++
  (match s.medial with | some mi => [mi.mark.trim] | none => []) ++
  [s.vowel.mark.trim] ++
  (match s.coda with | some w => [w.mark.trim] | none => [])

/-- `_extract_cv_pairs`, Chinese branch: parse syllables, convert to
pinyin, and emit an oto entry per syllable with a truthy alias. -/
def extract_cv_pairs_zh (words_tier phones_tier : List Iv) (wav_name : String)
    (wav_duration_ms : ℚ) (use_hiragana : Bool) (overlap_ratio : ℚ) :
    List OtoEntry :=
  let wr := buildWordRanges words_tier
  (cvParseZh wr phones_tier).filterMap (fun syl =>
    match syllable_to_pinyin (sylZhPhones syl) .zh use_hiragana with
    | some a =>
        if a = "" then none
        else some (calculate_oto_params wav_name a syl.syllable_start
          syl.consonant_duration syl.syllable_end wav_duration_ms overlap_ratio)
    | none => none)

/-- A unit recognized by the Japanese branch of `_extract_cv_pairs`:
either a consonant with an optional paired vowel, or a lone vowel. -/
inductive SylJa where
  | cv (consonant : Iv) (vowel : Option Iv) : SylJa
  | vOnly (vowel : Iv) : SylJa
deriving DecidableEq, Repr

/-- One iteration of the Japanese branch of the `_extract_cv_pairs` loop. -/
def cvStepJa (wr : List (ℚ × ℚ)) : List Iv → Option SylJa × ℕ
  | [] => (none, 1)
  | x :: rest =>
    let phone := x.mark.trim
    if SKIP_MARKS.contains phone then (none, 1)
    else if is_consonant phone .ja then
      match rest with
      | y :: _ =>
        if ¬ SKIP_MARKS.contains y.mark.trim ∧ is_vowel y.mark.trim .ja = true
            ∧ sameWord wr x.minTime y.minTime = true then
          (some (.cv x (some y)), 2)
        else (some (.cv x none), 1)
      | [] => (some (.cv x none), 1)
    else if is_vowel phone .ja then (some (.vOnly x), 1)
    else (none, 1)

/-- The Japanese branch of the `_extract_cv_pairs` while-loop. -/
def cvParseJa (wr : List (ℚ × ℚ)) : List Iv → List SylJa
  | [] => []
  | x :: rest =>
    let s := cvStepJa wr (x :: rest)
    (match s.1 with | some syl => [syl] | none => []) ++
      cvParseJa wr (rest.drop (s.2 - 1))
termination_by l => l.length
decreasing_by simp only [List.length_drop, List.length_cons]; omega

/-- Entry emission for a Japanese unit (alias resolution plus
`_calculate_oto_params`). -/
def sylJaEntry (wav_name : String) (wav_duration_ms overlap_ratio : ℚ)
    (use_hiragana : Bool) : SylJa → Option OtoEntry
  | .cv c vow =>
    let vowel_end := match vow with | some v => v.maxTime * 1000 | none => c.maxTime * 1000
    match ipa_to_alias_ja (some c.mark.trim) (vow.map (fun v => v.mark.trim)) use_hiragana with
    | some a =>
        if a = "" then none
        else some (calculate_oto_params wav_name a (c.minTime * 1000)
          (c.maxTime * 1000 - c.minTime * 1000) vowel_end wav_duration_ms overlap_ratio)
    | none => none
  | .vOnly x =>
    match ipa_to_alias_ja none (some x.mark.trim) use_hiragana with
    | some a =>
        if a = "" then none
        else some (calculate_oto_params wav_name a (x.minTime * 1000)
          (min 30 ((x.maxTime * 1000 - x.minTime * 1000) * (0.2 : ℚ)))
          (x.maxTime * 1000) wav_duration_ms overlap_ratio)
    | none => none

/-- `_extract_cv_pairs`, Japanese branch. -/
def extract_cv_pairs_ja (words_tier phones_tier : List Iv) (wav_name : String)
    (wav_duration_ms : ℚ) (use_hiragana : Bool) (overlap_ratio : ℚ) :
    List OtoEntry :=
  let wr := buildWordRanges words_tier
  (cvParseJa wr phones_tier).filterMap
    (sylJaEntry wav_name wav_duration_ms overlap_ratio use_hiragana)

/-- The built-in `vowel_data` of `_load_presamp_mapping`. -/
def vowel_data : List (String × List String) :=
  [("a", ["a", "ba", "pa", "ma", "fa", "da", "ta", "na", "la", "ga", "ka", "ha", "zha", "cha", "sha", "za", "ca", "sa", "ya", "lia", "jia", "qia", "xia", "wa", "gua", "kua", "hua", "zhua", "shua", "dia"]),
   ("ai", ["ai", "bai", "pai", "mai", "dai", "tai", "nai", "lai", "gai", "kai", "hai", "zhai", "chai", "shai", "zai", "cai", "sai", "wai", "guai", "kuai", "huai", "zhuai", "chuai", "shuai"]),
   ("an", ["an", "ban", "pan", "man", "fan", "dan", "tan", "nan", "lan", "gan", "kan", "han", "zhan", "chan", "shan", "ran", "zan", "can", "san", "wan", "duan", "tuan", "nuan", "luan", "guan", "kuan", "huan", "zhuan", "chuan", "shuan", "ruan", "zuan", "cuan", "suan"]),
   ("ang", ["ang", "bang", "pang", "mang", "fang", "dang", "tang", "nang", "lang", "gang", "kang", "hang", "zhang", "chang", "shang", "rang", "zang", "cang", "sang", "yang", "liang", "jiang", "qiang", "xiang", "wang", "guang", "kuang", "huang", "zhuang", "chuang", "shuang", "niang"]),
   ("ao", ["ao", "bao", "pao", "mao", "dao", "tao", "nao", "lao", "gao", "kao", "hao", "zhao", "chao", "shao", "rao", "zao", "cao", "sao", "yao", "biao", "piao", "miao", "diao", "tiao", "niao", "liao", "jiao", "qiao", "xiao"]),
   ("e", ["e", "me", "de", "te", "ne", "le", "ge", "ke", "he", "zhe", "che", "she", "re", "ze", "ce", "se"]),
   ("e0", ["ye", "bie", "pie", "mie", "die", "tie", "nie", "lie", "jie", "qie", "xie", "yue", "nue", "lue", "jue", "que", "xue"]),
   ("ei", ["ei", "bei", "pei", "mei", "fei", "dei", "tei", "nei", "lei", "gei", "kei", "hei", "zhei", "shei", "zei", "wei", "dui", "tui", "gui", "kui", "hui", "zhui", "chui", "shui", "rui", "zui", "cui", "sui"]),
   ("en", ["en", "ben", "pen", "men", "fen", "nen", "gen", "ken", "hen", "zhen", "chen", "shen", "ren", "zen", "cen", "sen", "wen", "dun", "tun", "lun", "gun", "kun", "hun", "zhun", "chun", "shun", "run", "zun", "cun", "sun"]),
   ("en0", ["yan", "bian", "pian", "mian", "dian", "tian", "nian", "lian", "jian", "qian", "xian", "yuan", "juan", "quan", "xuan"]),
   ("eng", ["beng", "peng", "meng", "feng", "deng", "teng", "neng", "leng", "geng", "keng", "heng", "weng", "zheng", "cheng", "sheng", "reng", "zeng", "ceng", "seng"]),
   ("er", ["er"]),
   ("i", ["bi", "pi", "mi", "di", "ti", "ni", "li", "ji", "qi", "xi", "yi"]),
   ("in", ["yin", "bin", "pin", "min", "nin", "lin", "jin", "qin", "xin"]),
   ("ing", ["ying", "bing", "ping", "ming", "ding", "ting", "ning", "ling", "jing", "qing", "xing"]),
   ("i0", ["zi", "ci", "si"]),
   ("ir", ["zhi", "chi", "shi", "ri"]),
   ("o", ["bo", "po", "mo", "fo", "wo", "duo", "tuo", "nuo", "luo", "guo", "kuo", "huo", "zhuo", "chuo", "shuo", "ruo", "zuo", "cuo", "suo"]),
   ("ong", ["dong", "tong", "nong", "long", "gong", "kong", "hong", "zhong", "chong", "rong", "zong", "cong", "song", "yong", "jiong", "qiong", "xiong"]),
   ("ou", ["ou", "pou", "mou", "fou", "dou", "tou", "lou", "gou", "kou", "hou", "zhou", "chou", "shou", "rou", "zou", "cou", "sou", "you", "miu", "diu", "niu", "liu", "jiu", "qiu", "xiu"]),
   ("u", ["bu", "pu", "mu", "fu", "du", "tu", "nu", "lu", "gu", "ku", "hu", "zhu", "chu", "shu", "ru", "zu", "cu", "su", "wu"]),
   ("v", ["yu", "nv", "lv", "ju", "qu", "xu"]),
   ("vn", ["yun", "jun", "qun", "xun"])]

/-- The built-in `consonant_data` of `_load_presamp_mapping`. -/
def consonant_data : List (String × List String) :=
  [("b", ["ba", "bai", "ban", "bang", "bao", "biao", "bie", "bei", "ben", "bian", "beng", "bi", "bin", "bing", "bo", "bu"]),
   ("p", ["pa", "pai", "pan", "pang", "pao", "piao", "pie", "pei", "pen", "pian", "peng", "pi", "pin", "ping", "po", "pou", "pu"]),
   ("m", ["ma", "mai", "man", "mang", "mao", "me", "mei", "men", "meng", "mo", "mou", "mu"]),
   ("f", ["fa", "fan", "fang", "fei", "fen", "feng", "fo", "fou", "fu"]),
   ("d", ["da", "dia", "dai", "dan", "duan", "dang", "dao", "diao", "de", "die", "dei", "dui", "dun", "dian", "deng", "di", "ding", "duo", "dong", "dou", "diu", "du"]),
   ("t", ["ta", "tai", "tan", "tuan", "tang", "tao", "tiao", "te", "tie", "tei", "tui", "tun", "tian", "teng", "ti", "ting", "tuo", "tong", "tou", "tu"]),
   ("n", ["na", "nai", "nan", "nuan", "nang", "nao", "ne", "nue", "nei", "nen", "neng", "nuo", "nong", "nu", "nv"]),
   ("l", ["la", "lai", "lan", "luan", "lang", "lao", "le", "lue", "lei", "lun", "leng", "luo", "long", "lou", "lu", "lv"]),
   ("g", ["ga", "gua", "gai", "guai", "gan", "guan", "gang", "guang", "gao", "ge", "gei", "gui", "gen", "gun", "geng", "guo", "gong", "gou", "gu"]),
   ("k", ["ka", "kua", "kai", "kuai", "kan", "kuan", "kang", "kuang", "kao", "ke", "kei", "kui", "ken", "kun", "keng", "kuo", "kong", "kou", "ku"]),
   ("h", ["ha", "hai", "han", "hang", "hao", "he", "hei", "hen", "heng", "hong", "hou"]),
   ("zh", ["zha", "zhua", "zhai", "zhuai", "zhan", "zhuan", "zhang", "zhuang", "zhao", "zhe", "zhei", "zhui", "zhen", "zhun", "zheng", "zhi", "zhuo", "zhong", "zhou", "zhu"]),
   ("ch", ["cha", "chai", "chuai", "chan", "chuan", "chang", "chuang", "chao", "che", "chui", "chen", "chun", "cheng", "chi", "chuo", "chong", "chou", "chu"]),
   ("sh", ["sha", "shai", "shan", "shang", "shao", "she", "shei", "shen", "sheng", "shi", "shou"]),
   ("z", ["za", "zai", "zan", "zuan", "zang", "zao", "ze", "zei", "zui", "zen", "zun", "zeng", "zi", "zuo", "zong", "zou", "zu"]),
   ("c", ["ca", "cai", "can", "cuan", "cang", "cao", "ce", "cui", "cen", "cun", "ceng", "ci", "cuo", "cong", "cou", "cu"]),
   ("s", ["sa", "sai", "san", "sang", "sao", "se", "sen", "seng", "si", "song", "sou"]),
   ("y", ["ya", "yang", "yao", "ye", "yan", "yi", "yin", "ying", "yong", "you"]),
   ("ly", ["lia", "liang", "liao", "lie", "lian", "li", "lin", "ling", "liu"]),
   ("j", ["jia", "jiang", "jiao", "jie", "jue", "jian", "juan", "ji", "jin", "jing", "jiong", "jiu", "ju", "jun"]),
   ("q", ["qia", "qiang", "qiao", "qie", "que", "qian", "quan", "qi", "qin", "qing", "qiong", "qiu", "qu", "qun"]),
   ("xy", ["xia", "xiang", "xiao", "xie", "xian", "xi", "xin", "xing", "xiong", "xiu"]),
   ("w", ["wa", "wai", "wan", "wang", "wei", "wen", "weng", "wo", "wu"]),
   ("hw", ["hua", "huai", "huan", "huang", "hui", "hun", "huo", "hu"]),
   ("shw", ["shua", "shuai", "shuan", "shuang", "shui", "shun", "shuo", "shu"]),
   ("r", ["ran", "ruan", "rang", "rao", "re", "rui", "ren", "run", "reng", "ri", "ruo", "rong", "rou", "ru"]),
   ("sw", ["suan", "sui", "sun", "suo", "su"]),
   ("ny", ["niang", "niao", "nie", "nian", "ni", "nin", "ning", "niu"]),
   ("my", ["miao", "mie", "mian", "mi", "min", "ming", "miu"]),
   ("v", ["yu", "yue", "yuan", "yun"]),
   ("xw", ["xue", "xuan", "xu", "xun"])]

/-- The dict-building loop of `_load_presamp_mapping`: later groups
overwrite earlier ones for a duplicated pinyin. -/
def buildPresampMap (data : List (String × List String)) (pinyin : String) :
    Option String :=
  data.foldl (fun acc g => if g.2.contains pinyin then some g.1 else acc) none

/-- `_find_vowel_in_mapping` over the built-in vowel map. -/
def find_vowel_in_mapping (pinyin : String) : Option String :=
  buildPresampMap vowel_data pinyin

/-- `_find_consonant_in_mapping` over the built-in consonant map. -/
def find_consonant_in_mapping (pinyin : String) : Option String :=
  buildPresampMap consonant_data pinyin

/-- A syllable parsed by the first loop of `_extract_vc_pairs`: the
consumed intervals and the loop's local timing variables (note that
`vowel_end` is assigned from `interval`, the syllable's FIRST phone). -/
structure SylVcRaw where
  anchor : Iv
  consonant : Option Iv
  medial : Option Iv
  vowel : Iv
  coda : Option Iv
  syllable_start : ℚ
  vowel_start : ℚ
  vowel_end : ℚ
  syllable_end : ℚ
  consonant_duration : ℚ
deriving DecidableEq, Repr

/-- Steps 3-4 (mandatory vowel, optional coda) of the `_extract_vc_pairs`
syllable parse.  `vowel_end` is set to `anchor.maxTime` — the first
interval of the syllable — exactly as line 1382 of the source does. -/
def vcVowelStage (anchor : Iv) (cons med : Option Iv) (cand : Iv)
    (vowel_start sylEndIn cd0 : ℚ) (consumed : ℕ) (rest : List Iv) :
    Option SylVcRaw × ℕ :=
  let _ := sylEndIn
  if is_vowel cand.mark.trim .zh then
    let vowel_end := anchor.maxTime * 1000
    let cd :=
      if cd0 = 0 then min 30 ((vowel_end - vowel_start) * (0.2 : ℚ)) else cd0
    match rest with
    | w :: _ =>
      let next_phone := w.mark.trim
      if ¬ SKIP_MARKS.contains next_phone
          ∧ CHINESE_CODAS.contains (stripTone next_phone) then
        (some { anchor := anchor, consonant := cons, medial := med, vowel := cand,
                coda := some w, syllable_start := anchor.minTime * 1000,
                vowel_start := vowel_start, vowel_end := w.maxTime * 1000,
                syllable_end := w.maxTime * 1000, consonant_duration := cd },
         consumed + 2)
      else
        (some { anchor := anchor, consonant := cons, medial := med, vowel := cand,
                coda := none, syllable_start := anchor.minTime * 1000,
                vowel_start := vowel_start, vowel_end := vowel_end,
                syllable_end := vowel_end, consonant_duration := cd },
         consumed + 1)
    | [] =>
        (some { anchor := anchor, consonant := cons, medial := med, vowel := cand,
                coda := none, syllable_start := anchor.minTime * 1000,
                vowel_start := vowel_start, vowel_end := vowel_end,
                syllable_end := vowel_end, consonant_duration := cd },
         consumed + 1)
  else (none, consumed + 1)

/-- Step 2 (optional medial) of the `_extract_vc_pairs` syllable parse
(no word-boundary test: only the skip-marker test is performed). -/
def vcMedialStage (anchor : Iv) (cons : Option Iv) (cand : Iv)
    (vowel_start sylEnd cd : ℚ) (consumed : ℕ) (rest : List Iv) :
    Option SylVcRaw × ℕ :=
  if CHINESE_MEDIALS.contains (stripTone cand.mark.trim) then
    match rest with
    | [] => (none, consumed + 1)
    | z :: rest2 =>
      if ¬ SKIP_MARKS.contains z.mark.trim then
        vcVowelStage anchor cons (some cand) z vowel_start (z.maxTime * 1000) cd
          (consumed + 1) rest2
      else (none, consumed + 1)
  else vcVowelStage anchor cons none cand vowel_start sylEnd cd consumed rest

/-- One iteration of the syllable-parsing loop of `_extract_vc_pairs`
(unlike the CV loop it never calls `same_word`). -/
def vcStep : List Iv → Option SylVcRaw × ℕ
  | [] => (none, 1)
  | x :: rest =>
    let phone := x.mark.trim
    if SKIP_MARKS.contains phone then (none, 1)
    else if is_consonant phone .zh then
      let cd := x.maxTime * 1000 - x.minTime * 1000
      match rest with
      | [] => (none, 1)
      | y :: rest2 =>
        if ¬ SKIP_MARKS.contains y.mark.trim then
          vcMedialStage x (some x) y (y.minTime * 1000) (y.maxTime * 1000) cd 1 rest2
        else (none, 1)
    else vcMedialStage x none x (x.minTime * 1000) (x.maxTime * 1000) 0 0 rest

/-- The syllable-parsing while-loop of `_extract_vc_pairs`. -/
def vcParse : List Iv → List SylVcRaw
  | [] => []
  | x :: rest =>
    let s := vcStep (x :: rest)
    (match s.1 with | some syl => [syl] | none => []) ++
      vcParse (rest.drop (s.2 - 1))
termination_by l => l.length
decreasing_by simp only [List.length_drop, List.length_cons]; omega

/-- The `syllable_phones` list of a VC-parsed syllable. -/
def sylVcPhones (s : SylVcRaw) : List String :=
  (match s.consonant with | some c => [c.mark.trim] | none => []) ++
  (match s.medial with | some mi => [mi.mark.trim] | none => []) ++
  [s.vowel.mark.trim] ++
  (match s.coda with | some w => [w.mark.trim] | none => [])

/-- The dict appended to `syllables` in `_extract_vc_pairs` (pinyin plus
presamp vowel/consonant identifiers and the timing fields). -/
structure SylVc where
  pinyin : String
  vowel_part : String
  consonant_part : Option String
  vowel_start : ℚ
  vowel_end : ℚ
  syllable_end : ℚ
deriving DecidableEq, Repr

/-- Steps 5 of `_extract_vc_pairs`: pinyin conversion and presamp lookup;
the syllable is kept only when the pinyin is truthy and a vowel identifier
exists, and `consonant_part` is looked up only when a consonant phone was
consumed (`has_consonant`). -/
def toSylVc (s : SylVcRaw) : Option SylVc :=
  match syllable_to_pinyin (sylVcPhones s) .zh false with
  | some p =>
    if p = "" then none
    else
      match find_vowel_in_mapping p with
      | some vp =>
          some { pinyin := p, vowel_part := vp,
                 consonant_part :=
                   if s.consonant.isSome then find_consonant_in_mapping p else none,
                 vowel_start := s.vowel_start, vowel_end := s.vowel_end,
                 syllable_end := s.syllable_end }
      | none => none
  | none => none

/-- The pair-generation loop of `_extract_vc_pairs`: for each consecutive
pair of recorded syllables, skip when the following syllable has no
consonant identifier, else emit `_calculate_vc_params` on the current
syllable's vowel span and the next syllable's end. -/
def mkVcEntries (wav_name : String) (wav_duration_ms vc_offset_ratio vc_overlap_ratio : ℚ)
    (vc_separator : String) : List SylVc → List OtoEntry
  | a :: b :: rest =>
    (match b.consonant_part with
     | some c =>
        [calculate_vc_params wav_name (a.vowel_part ++ vc_separator ++ c)
          a.vowel_start a.vowel_end b.syllable_end wav_duration_ms
          vc_offset_ratio vc_overlap_ratio]
     | none => []) ++
    mkVcEntries wav_name wav_duration_ms vc_offset_ratio vc_overlap_ratio
      vc_separator (b :: rest)
  | _ => []

/-- `_extract_vc_pairs`.  The `words_tier` parameter is accepted but --
exactly as in the source -- never consulted; only Chinese is supported. -/
def extract_vc_pairs (words_tier phones_tier : List Iv) (wav_name : String)
    (wav_duration_ms : ℚ) (language : Lang) (use_hiragana : Bool)
    (vc_offset_ratio vc_overlap_ratio : ℚ) (vc_separator : String) :
    List OtoEntry :=
  let _ := words_tier
  let _ := use_hiragana
  match language with
  | .ja => []
  | .zh =>
      mkVcEntries wav_name wav_duration_ms vc_offset_ratio vc_overlap_ratio
        vc_separator ((vcParse phones_tier).filterMap toSylVc)

/-- `np.linspace(a, b, n)`. -/
def linspace (a b : ℚ) (n : ℕ) : List ℚ :=
  if n = 0 then []
  else if n = 1 then [a]
  else (List.range n).map (fun (k : ℕ) => a + (b - a) * (k : ℚ) / ((n : ℚ) - 1))

/-- `_crossfade_concat`: linear fade-out on the tail of `audio1`, linear
fade-in on the head of `audio2`, summed over the overlap window. -/
def crossfade_concat (audio1 audio2 : List ℚ) (crossfade_samples : ℤ) :
    List ℚ :=
  if crossfade_samples ≤ 0 then audio1 ++ audio2
  else
    let cf : ℕ := min crossfade_samples.toNat (min audio1.length audio2.length)
    let fade_out := linspace 1 0 cf
    let fade_in := linspace 0 1 cf
    let part1 := audio1.take (audio1.length - cf)
    let overlap1 := audio1.drop (audio1.length - cf)
    let overlap2 := audio2.take cf
    let part2 := audio2.drop cf
    let crossfaded :=
      List.zipWith (fun u v => u + v)
        (List.zipWith (fun u v => u * v) overlap1 fade_out)
        (List.zipWith (fun u v => u * v) overlap2 fade_in)
    part1 ++ crossfaded ++ part2

/-- The crossfade length chosen by `_combine_and_save` (lines 2560-2564):
configured milliseconds converted to samples, clamped to half of each
segment length, floored at one sample.  `int(ms/1000*sr)` is modelled as
the exact floor. -/
def chooseCrossfadeSamples (crossfade_ms sr len1 len2 : ℕ) : ℕ :=
  let cf0 : ℕ := crossfade_ms * sr / 1000
  let cf := min cf0 (min (len1 / 2) (len2 / 2))
  if cf < 1 then 1 else cf

/-- The oto entry built by `_combine_and_save` for a synthesized unit, as
a function of the consonant exemplar's nominal duration, the combined
sample count and the sample rate
(`total_duration_ms = len(combined) / sr * 1000`). -/
def combined_entry (wav_name final_alias : String) (c_duration_ms : ℚ)
    (combined_len sr : ℕ) (overlap_ratio : ℚ) : OtoEntry :=
  let total_duration_ms : ℚ := (combined_len : ℚ) / (sr : ℚ) * 1000
  { wav_name := wav_name
    aliasStr := final_alias
    offset := 0
    consonant := round1 c_duration_ms
    cutoff := round1 (-total_duration_ms)
    preutterance := round1 c_duration_ms
    overlap := round1 (c_duration_ms * overlap_ratio)
    segment_duration := total_duration_ms
    is_combined := true }

/-- `_apply_extend` from simple_export.py (all times in seconds). -/
def apply_extend (start_time end_time extend_duration audio_duration : ℚ) :
    ℚ × ℚ :=
  if extend_duration ≤ 0 then (start_time, end_time)
  else
    let total_extend := extend_duration * 2
    let new_start := max 0 (start_time - extend_duration)
    let new_end := min audio_duration (end_time + extend_duration)
    let used := (start_time - new_start) + (new_end - end_time)
    let remaining := total_extend - used
    if remaining > 0 then
      let extra_end := min remaining (audio_duration - new_end)
      let new_end2 := new_end + extra_end
      let remaining2 := remaining - extra_end
      if remaining2 > 0 then (max 0 (new_start - remaining2), new_end2)
      else (new_start, new_end2)
    else (new_start, new_end)

/-- Stable insertion into a descending-by-score list: elements already in
the list with a strictly greater score stay in front; at equal scores the
inserted (originally earlier) element goes first. -/
def insertDesc (x : OtoEntry) : List OtoEntry → List OtoEntry
  | [] => [x]
  | y :: ys =>
    if x.quality_score < y.quality_score then y :: insertDesc x ys
    else x :: y :: ys

/-- Python's `sorted(group, key=lambda x: -x.get("quality_score", 0))`:
a stable descending sort by `quality_score` (all stable sorts under the
same key agree, so insertion sort is a faithful model of Timsort). -/
def sortByScoreDesc : List OtoEntry → List OtoEntry
  | [] => []
  | x :: xs => insertDesc x (sortByScoreDesc xs)

/-- Modelled from the spec: `apply_naming_rule` is defined in the plugin
base class (export_plugins/base.py), which is not part of src/; per the
spec the naming template supports two substitution markers, the base
alias and the zero-based rank index. -/
def apply_naming_rule (rule base_alias : String) (idx : ℕ) : String :=
  (rule.replace "%p%" base_alias).replace "%n%" (toString idx)

/-- The per-alias-group body of `_filter_by_alias` (lines 1702-1715):
sort the scored group descending by quality score (stable), keep the
first `max_samples`, and rename each survivor (index 0 uses the first
rule when it is non-empty). -/
def filterGroup (group : List OtoEntry) (max_samples : ℕ)
    (naming_rule first_naming_rule base_alias : String) : List OtoEntry :=
  ((sortByScoreDesc group).take max_samples).enum.map (fun p =>
    let idx := p.1
    let e := p.2
    let final_alias :=
      if idx = 0 ∧ first_naming_rule ≠ "" then
        apply_naming_rule first_naming_rule base_alias idx
      else apply_naming_rule naming_rule base_alias idx
    { e with aliasStr := final_alias })

/-- `FUZZY_CONSONANT_GROUPS`. -/
def FUZZY_CONSONANT_GROUPS : List (List String) :=
  [["sh", "s"], ["zh", "z"], ["ch", "c"], ["l", "n", "r"], ["f", "h"]]

/-- `FUZZY_VOWEL_GROUPS`. -/
def FUZZY_VOWEL_GROUPS : List (List String) :=
  [["an", "ang"], ["en", "eng", "ong"], ["in", "ing"], ["ian", "iang"],
   ["uan", "uang"],
   ["ia", "ian"], ["ie", "ian"], ["iao", "ian"], ["iu", "in"],
   ["ua", "uan"], ["uo", "un"], ["ui", "un"], ["uai", "uan"],
   ["a", "ai", "ao", "an"], ["o", "ou", "ong"], ["e", "ei", "en"]]

/-- A best consonant/vowel exemplar (`PhonemeExemplar`). -/
structure PhonemeInfo where
  wav_path : String
  offset_ms : ℚ
  duration_ms : ℚ
  quality_score : ℚ
deriving DecidableEq, Repr

/-- `_find_fuzzy_substitute`: the phoneme itself when available, else the
first available other member of the first group containing it. -/
def find_fuzzy_substitute (phoneme : String) (available_phonemes : List String)
    (groups : List (List String)) : Option String :=
  if available_phonemes.contains phoneme then some phoneme
  else
    match groups.find? (fun g => g.contains phoneme) with
    | some g =>
        g.find? (fun cand => (cand != phoneme) && available_phonemes.contains cand)
    | none => none

/-- A candidate dict produced by `_generate_candidates` /
`_generate_fuzzy_candidates`. -/
structure Candidate where
  aliasStr : String
  base_alias : String
  consonant_info : PhonemeInfo
  vowel_info : PhonemeInfo
  is_fuzzy : Bool := false
  fuzzy_from : String := ""
deriving DecidableEq, Repr

/-- `all_consonants` from `_generate_fuzzy_candidates`. -/
def all_consonants : List String :=
  ["b", "p", "m", "f", "d", "t", "n", "l", "g", "k", "h",
   "j", "q", "x", "zh", "ch", "sh", "r", "z", "c", "s", "y", "w"]

/-- `all_vowels` from `_generate_fuzzy_candidates`. -/
def all_vowels : List String :=
  ["a", "o", "e", "i", "u", "v",
   "ai", "ei", "ao", "ou",
   "an", "en", "ang", "eng", "ong",
   "ia", "ie", "iao", "iu", "ian", "in", "iang", "ing", "iong",
   "ua", "uo", "uai", "ui", "uan", "un", "uang", "ueng",
   "ve", "van", "vn", "er"]

/-- The per-axis resolution of `_generate_fuzzy_candidates`: the target
itself when it is available, else a fuzzy substitute. -/
def resolveAxis (target : String) (avail : List String)
    (groups : List (List String)) : Option String :=
  if avail.contains target then some target
  else find_fuzzy_substitute target avail groups

/-- One iteration of the double loop of `_generate_fuzzy_candidates` for
a `(target_c, target_v)` pair; `gen` is the accumulated
`generated_aliases` set. -/
def fuzzyPairStep (consonants vowels : List (String × PhonemeInfo))
    (availC availV gen : List String) (tc tv : String) : Option Candidate :=
  let target_alias := tc ++ tv
  if gen.contains target_alias then none
  else
    match resolveAxis tc availC FUZZY_CONSONANT_GROUPS,
          resolveAxis tv availV FUZZY_VOWEL_GROUPS with
    | some ac, some av =>
      if ac = tc ∧ av = tv then none
      else
        match consonants.lookup ac, vowels.lookup av with
        | some ci, some vi =>
            some { aliasStr := target_alias, base_alias := target_alias,
                   consonant_info := ci, vowel_info := vi, is_fuzzy := true,
                   fuzzy_from := ac ++ "+" ++ av }
        | _, _ => none
    | _, _ => none

/-- The double loop of `_generate_fuzzy_candidates`, threading the
`generated_aliases` accumulator through the flattened pair list. -/
def fuzzyLoop (consonants vowels : List (String × PhonemeInfo))
    (availC availV : List String) : List (String × String) → List String →
    List Candidate
  | [], _ => []
  | (tc, tv) :: pairs, gen =>
    match fuzzyPairStep consonants vowels availC availV gen tc tv with
    | some cand =>
        cand :: fuzzyLoop consonants vowels availC availV pairs
          (cand.aliasStr :: gen)
    | none => fuzzyLoop consonants vowels availC availV pairs gen

/-- `_generate_fuzzy_candidates`: `generated_aliases` starts as the
normal candidates' base aliases plus the existing aliases, then the full
consonant-by-vowel grid is scanned in order. -/
def generate_fuzzy_candidates (consonants vowels : List (String × PhonemeInfo))
    (availC availV existing_aliases : List String)
    (normal_candidates : List Candidate) : List Candidate :=
  let gen := normal_candidates.map (fun c => c.base_alias) ++ existing_aliases
  fuzzyLoop consonants vowels availC availV
    (all_consonants.flatMap (fun tc => all_vowels.map (fun tv => (tc, tv)))) gen

/-- The (amended) envelope invariant on a stored entry: the stored cutoff
is `-segment_duration` rounded to one decimal, the stored preutterance
exceeds `segment_duration` by at most the rounding slack 0.05, and the
stored overlap is nonnegative. -/
def entryInv (e : OtoEntry) : Prop :=
  e.cutoff = round1 (-e.segment_duration) ∧
  e.preutterance ≤ e.segment_duration + 1/20 ∧
  0 ≤ e.overlap

instance (e : OtoEntry) : Decidable (entryInv e) := by
  unfold entryInv; infer_instance

/-- The envelope invariant, over a whole entry list. -/
def entryInvAll (es : List OtoEntry) : Prop := ∀ e ∈ es, entryInv e

instance (es : List OtoEntry) : Decidable (entryInvAll es) := by
  unfold entryInvAll; exact List.decidableBAll _ es

/-- Two syllables occurring consecutively in a list. -/
def adjPair (a b : SylVc) (l : List SylVc) : Prop :=
  ∃ pre post, l = pre ++ a :: b :: post

/-- Scores are non-increasing along the list. -/
def scoresDesc (l : List OtoEntry) : Prop :=
  List.Chain' (fun a b => b.quality_score ≤ a.quality_score) l

/-- TextGrid tier well-formedness: every interval has nonnegative length
and consecutive intervals are contiguous (each `maxTime` equals the next
`minTime`), as holds for interval tiers produced by forced alignment. -/
def wfTier : List Iv → Bool
  | [] => true
  | [x] => decide (x.minTime ≤ x.maxTime)
  | x :: y :: rest =>
      decide (x.minTime ≤ x.maxTime) && decide (x.maxTime = y.minTime) &&
        wfTier (y :: rest)

/-- Strictly positive interval lengths. -/
def posTier (l : List Iv) : Bool :=
  l.all (fun iv => decide (iv.minTime < iv.maxTime))

/-- C4 check on a parsed Chinese CV syllable: every phone grouped beyond
the anchor passed the `same_word` test against the anchor time. -/
def c4okZh (wr : List (ℚ × ℚ)) (syl : SylZh) : Bool :=
  (match syl.medial with
   | some mi => sameWord wr syl.anchor.minTime mi.minTime
   | none => true) &&
  (match syl.consonant with
   | some _ => sameWord wr syl.anchor.minTime syl.vowel.minTime
   | none => true) &&
  (match syl.coda with
   | some w => sameWord wr syl.anchor.minTime w.minTime
   | none => true)

/-- C4 check on a Japanese CV unit: a paired vowel passed the
`same_word` test against the consonant time. -/
def c4okJa (wr : List (ℚ × ℚ)) : SylJa → Bool
  | .cv c (some v) => sameWord wr c.minTime v.minTime
  | _ => true

/-- C6 check on a Chinese CV syllable: with a consonant phone,
`consonant_end` (= offset + consonant_duration) is the consonant's end
time; otherwise the synthesized onset is `min(30, 20% of the vowel
phone's duration)`. -/
def c6okZh (syl : SylZh) : Bool :=
  match syl.consonant with
  | some c =>
      decide (syl.syllable_start + syl.consonant_duration = c.maxTime * 1000)
  | none =>
      decide (syl.consonant_duration =
        min 30 ((syl.vowel.maxTime - syl.vowel.minTime) * 1000 * (0.2 : ℚ)))

/-- C6 check on a VC-parsed syllable. -/
def c6okVc (s : SylVcRaw) : Bool :=
  match s.consonant with
  | some c =>
      decide (s.syllable_start + s.consonant_duration = c.maxTime * 1000)
  | none =>
      decide (s.consonant_duration =
        min 30 ((s.vowel.maxTime - s.vowel.minTime) * 1000 * (0.2 : ℚ)))

-- DEFS_END

/-- `rhe` never overshoots by more than one half. -/
theorem rhe_le (q : ℚ) : (rhe q : ℚ) ≤ q + 1/2 := by
  have h1 : (⌊q⌋ : ℚ) ≤ q := Int.floor_le q
  have h2 : q < ⌊q⌋ + 1 := Int.lt_floor_add_one q
  unfold rhe
  split_ifs <;> push_cast <;> linarith

/-- `rhe` never undershoots by more than one half. -/
theorem le_rhe (q : ℚ) : q - 1/2 ≤ (rhe q : ℚ) := by
  have h1 : (⌊q⌋ : ℚ) ≤ q := Int.floor_le q
  have h2 : q < ⌊q⌋ + 1 := Int.lt_floor_add_one q
  unfold rhe
  split_ifs <;> push_cast <;> linarith

/-- Rounding to one decimal adds at most 0.05. -/
theorem round1_le (q : ℚ) : round1 q ≤ q + 1/20 := by
  have h := rhe_le (10 * q)
  unfold round1
  linarith

/-- Rounding to one decimal subtracts at most 0.05. -/
theorem le_round1 (q : ℚ) : q - 1/20 ≤ round1 q := by
  have h := le_rhe (10 * q)
  unfold round1
  linarith

/-- Rounding to one decimal preserves nonnegativity. -/
theorem round1_nonneg (q : ℚ) (h : 0 ≤ q) : 0 ≤ round1 q := by
  have h0 : (0 : ℚ) ≤ (⌊10 * q⌋ : ℚ) := by
    exact_mod_cast Int.floor_nonneg.mpr (by linarith : (0 : ℚ) ≤ 10 * q)
  unfold round1 rhe
  split_ifs <;> refine div_nonneg ?_ (by norm_num) <;> push_cast <;> linarith

/-- `_calculate_oto_params` satisfies the envelope invariant whenever the
consonant region is nonnegative and fits inside the segment and the
overlap ratio is nonnegative. -/
theorem calcOto_inv (wav a : String) (offset cd segment_end dur ratio : ℚ)
    (h0 : 0 ≤ cd) (h1 : cd ≤ segment_end - offset) (hr : 0 ≤ ratio) :
    entryInv (calculate_oto_params wav a offset cd segment_end dur ratio) := by
  refine ⟨rfl, ?_, ?_⟩
  · have := round1_le cd
    simp only [calculate_oto_params]
    linarith
  · exact round1_nonneg _ (mul_nonneg h0 hr)

/-- `_calculate_vc_params` satisfies the envelope invariant whenever the
vowel span is nonnegative, the vowel ends before the following syllable
ends, and the two ratios are nonnegative. -/
theorem calcVc_inv (wav a : String) (vs ve ce dur ro rv : ℚ)
    (h0 : vs ≤ ve) (h1 : ve ≤ ce) (hro : 0 ≤ ro) (hrv : 0 ≤ rv) :
    entryInv (calculate_vc_params wav a vs ve ce dur ro rv) := by
  have hpre : 0 ≤ (ve - vs) * ro := mul_nonneg (by linarith) hro
  refine ⟨rfl, ?_, ?_⟩
  · have h2 := round1_le (ve - (ve - (ve - vs) * ro))
    simp only [calculate_vc_params]
    ring_nf
    ring_nf at h2
    linarith
  · exact round1_nonneg _ (mul_nonneg (by ring_nf; linarith) hrv)

/-- C2 (amended): for every simple (CV) unit the calculator, given
`(unitStart, consonantEnd, unitEnd)` and overlap ratio `r`, stores each
envelope field rounded to one decimal — `offset = round1 unitStart`,
`consonant = round1 (consonantEnd - unitStart)`,
`cutoff = round1 (-(unitEnd - unitStart))`,
`preutterance = consonant` (exact, both round the same value),
`overlap = round1 ((consonantEnd - unitStart) * r)` — while
`segment_duration = unitEnd - unitStart` is stored exactly; and the
claim's concrete instance (100/150/300, ratio 0.3) holds exactly. -/
theorem c2_cv_envelope_formulas :
    (∀ (wav a : String) (us ce ue dur r : ℚ),
      (calculate_oto_params wav a us (ce - us) ue dur r).offset = round1 us ∧
      (calculate_oto_params wav a us (ce - us) ue dur r).consonant = round1 (ce - us) ∧
      (calculate_oto_params wav a us (ce - us) ue dur r).segment_duration = ue - us ∧
      (calculate_oto_params wav a us (ce - us) ue dur r).cutoff = round1 (-(ue - us)) ∧
      (calculate_oto_params wav a us (ce - us) ue dur r).preutterance =
        (calculate_oto_params wav a us (ce - us) ue dur r).consonant ∧
      (calculate_oto_params wav a us (ce - us) ue dur r).overlap = round1 ((ce - us) * r)) ∧
    ((calculate_oto_params "w.wav" "ga" 100 (150 - 100) 300 1000 (3/10)).offset = 100 ∧
     (calculate_oto_params "w.wav" "ga" 100 (150 - 100) 300 1000 (3/10)).consonant = 50 ∧
     (calculate_oto_params "w.wav" "ga" 100 (150 - 100) 300 1000 (3/10)).segment_duration = 200 ∧
     (calculate_oto_params "w.wav" "ga" 100 (150 - 100) 300 1000 (3/10)).cutoff = -200 ∧
     (calculate_oto_params "w.wav" "ga" 100 (150 - 100) 300 1000 (3/10)).preutterance = 50 ∧
     (calculate_oto_params "w.wav" "ga" 100 (150 - 100) 300 1000 (3/10)).overlap = 15) := by
  constructor
  · intro wav a us ce ue dur r
    exact ⟨rfl, rfl, rfl, rfl, rfl, rfl⟩
  · refine ⟨?_, ?_, ?_, ?_, ?_, ?_⟩ <;> with_unfolding_all decide

/-- C2 counterexample: at `unitStart = 100.13` ms the stored offset is
`100.1`, not `unitStart` — the claim's exact field equalities fail
because the calculator rounds every stored field to one decimal. -/
theorem c2_counterexample :
    (calculate_oto_params "w.wav" "ba" (10013/100) ((15013/100) - (10013/100))
      (30013/100) 1000 (3/10)).offset ≠ 10013/100 := by
  with_unfolding_all decide

/-- C3 (amended): (1) for every transition (VC) unit the calculator
stores the claim's formulas rounded to one decimal (with
`vowelDuration = vowelEnd - vowelStart`,
`offset_raw = vowelEnd - vowelDuration*ro`,
`segment_duration = consonantEndNext - offset_raw` stored exactly);
(2) every emitted transition entry comes from a consecutive syllable pair
whose second member has a consonant identifier; (3) a recorded syllable
carries a consonant identifier only if its parse consumed a consonant
phone (so a vowel-initial following syllable yields no transition). -/
theorem c3_vc_envelope_and_gating :
    (∀ (wav a : String) (vs ve ce dur ro rv : ℚ),
      (calculate_vc_params wav a vs ve ce dur ro rv).offset =
        round1 (ve - (ve - vs) * ro) ∧
      (calculate_vc_params wav a vs ve ce dur ro rv).segment_duration =
        ce - (ve - (ve - vs) * ro) ∧
      (calculate_vc_params wav a vs ve ce dur ro rv).preutterance =
        round1 (ve - (ve - (ve - vs) * ro)) ∧
      (calculate_vc_params wav a vs ve ce dur ro rv).consonant =
        round1 (min 30 ((ce - (ve - (ve - vs) * ro)) * (0.3 : ℚ))) ∧
      (calculate_vc_params wav a vs ve ce dur ro rv).overlap =
        round1 ((ve - (ve - (ve - vs) * ro)) * rv) ∧
      (calculate_vc_params wav a vs ve ce dur ro rv).cutoff =
        round1 (-(ce - (ve - (ve - vs) * ro)))) ∧
    (∀ (wav : String) (dur ro rv : ℚ) (sep : String) (syls : List SylVc)
       (e : OtoEntry), e ∈ mkVcEntries wav dur ro rv sep syls →
      ∃ a b c, adjPair a b syls ∧ b.consonant_part = some c ∧
        e = calculate_vc_params wav (a.vowel_part ++ sep ++ c)
              a.vowel_start a.vowel_end b.syllable_end dur ro rv) ∧
    (∀ (raw : SylVcRaw) (s : SylVc), toSylVc raw = some s →
      s.consonant_part ≠ none → raw.consonant.isSome = true) := by
  refine ⟨?_, ?_, ?_⟩
  · intro wav a vs ve ce dur ro rv
    exact ⟨rfl, rfl, rfl, rfl, rfl, rfl⟩
  · intro wav dur ro rv sep syls
    induction syls with
    | nil => intro e he; simp [mkVcEntries] at he
    | cons x t ih =>
      intro e he
      match t, ih with
      | [], _ => simp [mkVcEntries] at he
      | b :: rest, ih =>
        rw [mkVcEntries] at he
        rcases List.mem_append.mp he with h | h
        · refine ⟨x, b, ?_⟩
          rcases hb : b.consonant_part with _ | c
          · rw [hb] at h; simp at h
          · rw [hb] at h
            simp only [List.mem_singleton] at h
            exact ⟨c, ⟨[], rest, rfl⟩, rfl, h⟩
        · obtain ⟨a, b2, c, ⟨pre, post, hdec⟩, hc, he2⟩ := ih e h
          exact ⟨a, b2, c, ⟨x :: pre, post, by rw [hdec]; rfl⟩, hc, he2⟩
  · intro raw s hsome hcp
    unfold toSylVc at hsome
    split at hsome
    · split at hsome
      · exact absurd hsome (by simp)
      · split at hsome
        · by_cases hcons : raw.consonant.isSome = true
          · exact hcons
          · exfalso
            apply hcp
            have hrec := Option.some.inj hsome
            rw [← hrec]
            simp only []
            rw [if_neg hcons]
        · exact absurd hsome (by simp)
    · exact absurd hsome (by simp)

set_option maxRecDepth 1000000 in
/-- C3 counterexample: a pipeline run on the contiguous phone tier
a[0ms, 100.13ms], k[100.13ms, 200ms], a[200ms, 300ms] with offset ratio
0.3 emits exactly one VC entry, whose stored offset is 70.1 — not the
claim's exact `vowelEnd - vowelDuration × ro = 70.091` — because the
stored fields are rounded to one decimal. -/
theorem c3_counterexample :
    ((extract_vc_pairs [] [⟨"a", 0, 10013/100000⟩, ⟨"k", 10013/100000, 1/5⟩,
        ⟨"a", 1/5, 3/10⟩] "w" 300 .zh false (3/10) (1/2) " ").map
      (fun e => e.offset)) = [701/10] ∧
    (701/10 : ℚ) ≠ (10013/100 : ℚ) - ((10013/100 : ℚ) - 0) * (3/10) := by
  constructor <;> with_unfolding_all decide

/-- C10: the head/tail extension of simple_export.py keeps the original
interval inside the result, never leaves `[0, audio_duration]`, and adds
at most `2 * extend_duration` of total length. -/
theorem c10_apply_extend_bounds (s e ext dur : ℚ) (hs : 0 ≤ s) (hse : s ≤ e)
    (hed : e ≤ dur) (hext : 0 ≤ ext) :
    0 ≤ (apply_extend s e ext dur).1 ∧ (apply_extend s e ext dur).1 ≤ s ∧
    e ≤ (apply_extend s e ext dur).2 ∧ (apply_extend s e ext dur).2 ≤ dur ∧
    ((apply_extend s e ext dur).2 - (apply_extend s e ext dur).1) - (e - s) ≤
      2 * ext := by
  have hns0 : (0 : ℚ) ≤ max 0 (s - ext) := le_max_left 0 (s - ext)
  have hnss : max 0 (s - ext) ≤ s := max_le hs (by linarith)
  have hns2 : s - ext ≤ max 0 (s - ext) := le_max_right 0 (s - ext)
  have hne1 : e ≤ min dur (e + ext) := le_min hed (by linarith)
  have hne2 : min dur (e + ext) ≤ dur := min_le_left dur (e + ext)
  have hne3 : min dur (e + ext) ≤ e + ext := min_le_right dur (e + ext)
  have hex1 := min_le_right (ext * 2 - ((s - max 0 (s - ext)) + (min dur (e + ext) - e)))
    (dur - min dur (e + ext))
  have hex2 := min_le_left (ext * 2 - ((s - max 0 (s - ext)) + (min dur (e + ext) - e)))
    (dur - min dur (e + ext))
  simp only [apply_extend]
  split_ifs with h1 h2 h3 <;> dsimp only
  · exact ⟨hs, le_refl s, le_refl e, hed, by linarith⟩
  · -- both compensation steps fire; the final start is clamped at 0
    have hex0 : 0 ≤ min (ext * 2 - ((s - max 0 (s - ext)) + (min dur (e + ext) - e)))
        (dur - min dur (e + ext)) := le_min (by linarith) (by linarith)
    have hfs1 : (0 : ℚ) ≤ max 0 (max 0 (s - ext) -
        (ext * 2 - ((s - max 0 (s - ext)) + (min dur (e + ext) - e)) -
          min (ext * 2 - ((s - max 0 (s - ext)) + (min dur (e + ext) - e)))
            (dur - min dur (e + ext)))) := le_max_left _ _
    have hfs3 : max 0 (s - ext) -
        (ext * 2 - ((s - max 0 (s - ext)) + (min dur (e + ext) - e)) -
          min (ext * 2 - ((s - max 0 (s - ext)) + (min dur (e + ext) - e)))
            (dur - min dur (e + ext))) ≤ max 0 (max 0 (s - ext) -
        (ext * 2 - ((s - max 0 (s - ext)) + (min dur (e + ext) - e)) -
          min (ext * 2 - ((s - max 0 (s - ext)) + (min dur (e + ext) - e)))
            (dur - min dur (e + ext)))) := le_max_right _ _
    have hfs2 : max 0 (max 0 (s - ext) -
        (ext * 2 - ((s - max 0 (s - ext)) + (min dur (e + ext) - e)) -
          min (ext * 2 - ((s - max 0 (s - ext)) + (min dur (e + ext) - e)))
            (dur - min dur (e + ext)))) ≤ max 0 (s - ext) :=
      max_le hns0 (by linarith)
    exact ⟨hfs1, by linarith, by linarith, by linarith, by linarith⟩
  · -- the tail compensation exhausts the remaining budget
    have hex0 : 0 ≤ min (ext * 2 - ((s - max 0 (s - ext)) + (min dur (e + ext) - e)))
        (dur - min dur (e + ext)) := le_min (by linarith) (by linarith)
    exact ⟨hns0, hnss, by linarith, by linarith, by linarith⟩
  · exact ⟨hns0, hnss, hne1, hne2, by linarith⟩

/-- C10 witness: extending [0.5s, 1.0s] by 0.3s in a 1.1s file. -/
theorem c10_apply_extend_bounds_witness :
    0 ≤ (apply_extend (1/2) 1 (3/10) (11/10)).1 ∧
    (apply_extend (1/2) 1 (3/10) (11/10)).1 ≤ 1/2 ∧
    1 ≤ (apply_extend (1/2) 1 (3/10) (11/10)).2 ∧
    (apply_extend (1/2) 1 (3/10) (11/10)).2 ≤ 11/10 ∧
    ((apply_extend (1/2) 1 (3/10) (11/10)).2 - (apply_extend (1/2) 1 (3/10) (11/10)).1)
      - (1 - 1/2) ≤ 2 * (3/10) := by
  exact c10_apply_extend_bounds (1/2) 1 (3/10) (11/10) (by norm_num) (by norm_num)
    (by norm_num) (by norm_num)

/-- `np.linspace` produces exactly `n` samples. -/
theorem linspace_length (a b : ℚ) (n : ℕ) : (linspace a b n).length = n := by
  unfold linspace
  split_ifs with h1 h2
  · simp [h1]
  · simp [h2]
  · rw [List.length_map, List.length_range]

/-- C7 (amended): crossfade concatenation of two non-empty segments has
length `len1 + len2 - crossfadeSamples`, and the chosen crossfade length
is at most `min(len1, len2) // 2` whenever both segments have at least
two samples (the one-sample floor can exceed that bound only when a
segment has a single sample). -/
theorem c7_crossfade_length (a1 a2 : List ℚ) (crossfade_ms sr : ℕ)
    (h1 : a1 ≠ []) (h2 : a2 ≠ []) :
    (crossfade_concat a1 a2
        ((chooseCrossfadeSamples crossfade_ms sr a1.length a2.length : ℕ) : ℤ)).length =
      a1.length + a2.length - chooseCrossfadeSamples crossfade_ms sr a1.length a2.length ∧
    (2 ≤ min a1.length a2.length →
      chooseCrossfadeSamples crossfade_ms sr a1.length a2.length ≤
        min a1.length a2.length / 2) := by
  have hl1 : 1 ≤ a1.length := List.length_pos.mpr h1
  have hl2 : 1 ≤ a2.length := List.length_pos.mpr h2
  have hge1 : 1 ≤ chooseCrossfadeSamples crossfade_ms sr a1.length a2.length := by
    simp only [chooseCrossfadeSamples]
    split_ifs <;> omega
  have hle : chooseCrossfadeSamples crossfade_ms sr a1.length a2.length ≤
      min a1.length a2.length := by
    simp only [chooseCrossfadeSamples]
    split_ifs <;> omega
  constructor
  · set cf := chooseCrossfadeSamples crossfade_ms sr a1.length a2.length with hcf
    have htn : ((cf : ℤ)).toNat = cf := by omega
    simp only [crossfade_concat]
    rw [if_neg (by omega : ¬ ((cf : ℤ) ≤ 0))]
    rw [htn]
    rw [min_eq_left hle]
    simp only [List.length_append, List.length_zipWith, linspace_length,
      List.length_drop, List.length_take]
    omega
  · intro hmin2
    simp only [chooseCrossfadeSamples]
    split_ifs <;> omega

/-- C7 witness: with 10- and 8-sample segments and 3 crossfade samples
the combined segment has 10 + 8 - 3 = 15 samples. -/
theorem c7_crossfade_length_witness :
    (crossfade_concat (List.replicate 10 (0 : ℚ)) (List.replicate 8 (0 : ℚ))
        ((chooseCrossfadeSamples 3 1000 (List.replicate 10 (0 : ℚ)).length
          (List.replicate 8 (0 : ℚ)).length : ℕ) : ℤ)).length =
      10 + 8 - chooseCrossfadeSamples 3 1000 (List.replicate 10 (0 : ℚ)).length
        (List.replicate 8 (0 : ℚ)).length ∧
    (2 ≤ min (List.replicate 10 (0 : ℚ)).length (List.replicate 8 (0 : ℚ)).length →
      chooseCrossfadeSamples 3 1000 (List.replicate 10 (0 : ℚ)).length
          (List.replicate 8 (0 : ℚ)).length ≤
        min (List.replicate 10 (0 : ℚ)).length (List.replicate 8 (0 : ℚ)).length / 2) := by
  exact c7_crossfade_length (List.replicate 10 (0 : ℚ)) (List.replicate 8 (0 : ℚ))
    3 1000 (by simp) (by simp)

/-- C7 counterexample: for two one-sample segments the chosen crossfade
length is floored at 1 sample, which exceeds `min(len1, len2) // 2 = 0`;
the claim's bound `crossfadeSamples <= min(len1, len2) // 2` fails. -/
theorem c7_counterexample :
    chooseCrossfadeSamples 10 44100 ([(0 : ℚ)].length) ([(0 : ℚ)].length) = 1 ∧
    ¬ (chooseCrossfadeSamples 10 44100 ([(0 : ℚ)].length) ([(0 : ℚ)].length) ≤
        min ([(0 : ℚ)].length) ([(0 : ℚ)].length) / 2) := by
  constructor <;> decide

set_option maxRecDepth 1000000 in
/-- C3 witness: the gating part instantiated on a concrete two-syllable
list — the emitted entry comes from the consecutive pair whose second
member carries the consonant identifier g. -/
theorem c3_vc_envelope_and_gating_witness :
    ∃ a b c, adjPair a b [⟨"a", "a", none, 0, 100, 100⟩,
        ⟨"ga", "a", some "g", 150, 150, 150⟩] ∧ b.consonant_part = some c ∧
      calculate_vc_params "w" ("a" ++ " " ++ "g") 0 100 150 300 (3/10) (1/2) =
        calculate_vc_params "w" (a.vowel_part ++ " " ++ c)
          a.vowel_start a.vowel_end b.syllable_end 300 (3/10) (1/2) :=
  c3_vc_envelope_and_gating.2.1 "w" 300 (3/10) (1/2) " "
    [⟨"a", "a", none, 0, 100, 100⟩, ⟨"ga", "a", some "g", 150, 150, 150⟩]
    (calculate_vc_params "w" ("a" ++ " " ++ "g") 0 100 150 300 (3/10) (1/2))
    (by with_unfolding_all decide)

/-- Inserting adds one element. -/
theorem insertDesc_length (x : OtoEntry) (l : List OtoEntry) :
    (insertDesc x l).length = l.length + 1 := by
  induction l with
  | nil => rfl
  | cons y ys ih =>
    simp only [insertDesc]
    split_ifs
    · simp [ih]
    · simp

/-- The stable sort preserves the number of entries. -/
theorem sortByScoreDesc_length (l : List OtoEntry) :
    (sortByScoreDesc l).length = l.length := by
  induction l with
  | nil => rfl
  | cons x xs ih => simp [sortByScoreDesc, insertDesc_length, ih]

/-- Inserting commutes with filtering by an exact score: the entries of
any fixed score keep their relative order (x, being older, lands in
front of equal-scored entries). -/
theorem filter_score_insertDesc (q : ℚ) (x : OtoEntry) (l : List OtoEntry) :
    (insertDesc x l).filter (fun e => decide (e.quality_score = q)) =
    (x :: l).filter (fun e => decide (e.quality_score = q)) := by
  induction l with
  | nil => rfl
  | cons y ys ih =>
    simp only [insertDesc]
    split_ifs with hxy
    · by_cases hx : x.quality_score = q
      · have hy : ¬ (y.quality_score = q) := by
          intro h
          rw [hx] at hxy
          rw [h] at hxy
          exact lt_irrefl q hxy
        simp [List.filter_cons, hx, hy, ih]
      · simp [List.filter_cons, hx, ih]
    · rfl

/-- The stable sort commutes with filtering by an exact score: entries of
equal quality score appear in the same relative order as in the input. -/
theorem filter_score_sort (q : ℚ) (l : List OtoEntry) :
    (sortByScoreDesc l).filter (fun e => decide (e.quality_score = q)) =
    l.filter (fun e => decide (e.quality_score = q)) := by
  induction l with
  | nil => rfl
  | cons x xs ih =>
    simp only [sortByScoreDesc]
    rw [filter_score_insertDesc]
    simp only [List.filter_cons]
    split_ifs with hx
    · rw [ih]
    · exact ih

/-- Inserting into a descending list keeps it descending. -/
theorem insertDesc_sorted (x : OtoEntry) :
    ∀ l : List OtoEntry, scoresDesc l → scoresDesc (insertDesc x l) := by
  intro l
  induction l with
  | nil => intro _; exact List.chain'_singleton x
  | cons y ys ih =>
    intro h
    simp only [insertDesc]
    split_ifs with hxy
    · have hys : scoresDesc ys := List.Chain'.tail h
      refine List.chain'_cons'.mpr ⟨?_, ih hys⟩
      intro z hz
      cases ys with
      | nil =>
        simp only [insertDesc, List.head?_cons, Option.mem_def,
          Option.some.injEq] at hz
        rw [← hz]
        exact le_of_lt hxy
      | cons w ws =>
        simp only [insertDesc] at hz
        split_ifs at hz with hxw
        · simp only [List.head?_cons, Option.mem_def, Option.some.injEq] at hz
          rw [← hz]
          exact (List.chain'_cons.mp h).1
        · simp only [List.head?_cons, Option.mem_def, Option.some.injEq] at hz
          rw [← hz]
          exact le_of_lt hxy
    · exact List.chain'_cons.mpr ⟨le_of_not_lt hxy, h⟩

/-- The model of Python's `sorted(key=lambda x: -score)` really sorts
descending by score. -/
theorem sortByScoreDesc_sorted (l : List OtoEntry) :
    scoresDesc (sortByScoreDesc l) := by
  induction l with
  | nil => exact List.chain'_nil
  | cons x xs ih => exact insertDesc_sorted x (sortByScoreDesc xs) ih

/-- C9: for every alias group the quality selector keeps exactly
`min(topK, len(group))` entries, the descending-by-score sort is stable
(filtering by any fixed score commutes with sorting, so equal-scored
entries keep their original relative order), and the sort really orders
scores descending. -/
theorem c9_quality_selector (group : List OtoEntry) (k : ℕ)
    (naming_rule first_naming_rule base_alias : String) :
    (filterGroup group k naming_rule first_naming_rule base_alias).length =
      min k group.length ∧
    (∀ q : ℚ, (sortByScoreDesc group).filter (fun e => decide (e.quality_score = q)) =
      group.filter (fun e => decide (e.quality_score = q))) ∧
    scoresDesc (sortByScoreDesc group) := by
  refine ⟨?_, fun q => filter_score_sort q group, sortByScoreDesc_sorted group⟩
  simp [filterGroup, List.length_take, sortByScoreDesc_length]

/-- What a successful fuzzy pair step guarantees about its candidate. -/
theorem fuzzyPairStep_some (consonants vowels : List (String × PhonemeInfo))
    (availC availV gen : List String) (tc tv : String) (cand : Candidate)
    (h : fuzzyPairStep consonants vowels availC availV gen tc tv = some cand) :
    gen.contains cand.aliasStr = false ∧ cand.aliasStr = tc ++ tv ∧
    cand.base_alias = tc ++ tv ∧ cand.is_fuzzy = true ∧
    ∃ ac av, resolveAxis tc availC FUZZY_CONSONANT_GROUPS = some ac ∧
      resolveAxis tv availV FUZZY_VOWEL_GROUPS = some av ∧
      ¬ (ac = tc ∧ av = tv) ∧
      consonants.lookup ac = some cand.consonant_info ∧
      vowels.lookup av = some cand.vowel_info := by
  unfold fuzzyPairStep at h
  by_cases hg : gen.contains (tc ++ tv) = true
  · rw [if_pos hg] at h
    exact absurd h (by simp)
  · rw [if_neg hg] at h
    rcases hac : resolveAxis tc availC FUZZY_CONSONANT_GROUPS with _ | ac
    · rw [hac] at h; exact absurd h (by simp)
    rcases hav : resolveAxis tv availV FUZZY_VOWEL_GROUPS with _ | av
    · rw [hac, hav] at h; exact absurd h (by simp)
    rw [hac, hav] at h
    simp only [] at h
    split_ifs at h with heq
    rcases hci : consonants.lookup ac with _ | ci
    · rw [hci] at h; exact absurd h (by simp)
    rcases hvi : vowels.lookup av with _ | vi
    · rw [hci, hvi] at h; exact absurd h (by simp)
    rw [hci, hvi] at h
    have hc := Option.some.inj h
    rw [← hc]
    refine ⟨by simpa using Bool.of_not_eq_true hg, rfl, rfl, rfl,
      ac, av, rfl, rfl, heq, by rw [hci], by rw [hvi]⟩

/-- What membership in the fuzzy double loop guarantees: the candidate's
target alias was not in the incoming `generated_aliases` set, and it
arises from an in-grid pair on which both axes resolved. -/
theorem fuzzyLoop_mem (consonants vowels : List (String × PhonemeInfo))
    (availC availV : List String) :
    ∀ (pairs : List (String × String)) (gen : List String) (cand : Candidate),
      cand ∈ fuzzyLoop consonants vowels availC availV pairs gen →
      gen.contains cand.aliasStr = false ∧
      ∃ tc tv, (tc, tv) ∈ pairs ∧ cand.aliasStr = tc ++ tv ∧
        cand.base_alias = tc ++ tv ∧ cand.is_fuzzy = true ∧
        ∃ ac av, resolveAxis tc availC FUZZY_CONSONANT_GROUPS = some ac ∧
          resolveAxis tv availV FUZZY_VOWEL_GROUPS = some av ∧
          ¬ (ac = tc ∧ av = tv) ∧
          consonants.lookup ac = some cand.consonant_info ∧
          vowels.lookup av = some cand.vowel_info := by
  intro pairs
  induction pairs with
  | nil => intro gen cand h; simp [fuzzyLoop] at h
  | cons p ps ih =>
    intro gen cand h
    obtain ⟨tc, tv⟩ := p
    rw [fuzzyLoop] at h
    rcases hstep : fuzzyPairStep consonants vowels availC availV gen tc tv with _ | c0
    · rw [hstep] at h
      obtain ⟨hgen, tc', tv', hmem, hrest⟩ := ih gen cand h
      exact ⟨hgen, tc', tv', List.mem_cons_of_mem _ hmem, hrest⟩
    · rw [hstep] at h
      rcases List.mem_cons.mp h with rfl | htail
      · obtain ⟨hgen, h1, h2, h3, hax⟩ := fuzzyPairStep_some _ _ _ _ _ _ _ _ hstep
        exact ⟨hgen, tc, tv, List.mem_cons_self _ _, h1, h2, h3, hax⟩
      · obtain ⟨hgen, tc', tv', hmem, hrest⟩ := ih (c0.aliasStr :: gen) cand htail
        refine ⟨?_, tc', tv', List.mem_cons_of_mem _ hmem, hrest⟩
        simp only [List.contains_cons, Bool.or_eq_false_iff] at hgen
        exact hgen.2

set_option maxRecDepth 4000000 in
/-- C8: (general part) every fuzzy candidate is flagged fuzzy, its target
alias is neither an existing alias nor a normal candidate's base alias,
and it exists only because both the consonant axis and the vowel axis
resolved (exactly or via a group substitute, with at least one real
substitution) to available exemplars, which it carries while keeping the
target's alias string.  (Scenario part) with only consonant s and vowel a
available, target sh resolves through the group (sh, s): the candidates
are sha/shai/shao (then sai/sao via the vowel groups), each flagged
fuzzy, labelled with the substituted pair s+a, and carrying s's exemplar
under the target alias. -/
theorem c8_fuzzy_substitution :
    (∀ (consonants vowels : List (String × PhonemeInfo))
       (availC availV existing_aliases : List String)
       (normals : List Candidate) (cand : Candidate),
      cand ∈ generate_fuzzy_candidates consonants vowels availC availV
        existing_aliases normals →
      cand.is_fuzzy = true ∧
      existing_aliases.contains cand.aliasStr = false ∧
      (normals.map (fun c => c.base_alias)).contains cand.aliasStr = false ∧
      ∃ tc tv ac av, tc ∈ all_consonants ∧ tv ∈ all_vowels ∧
        cand.aliasStr = tc ++ tv ∧
        resolveAxis tc availC FUZZY_CONSONANT_GROUPS = some ac ∧
        resolveAxis tv availV FUZZY_VOWEL_GROUPS = some av ∧
        ¬ (ac = tc ∧ av = tv) ∧
        consonants.lookup ac = some cand.consonant_info ∧
        vowels.lookup av = some cand.vowel_info) ∧
    ((generate_fuzzy_candidates [("s", ⟨"s.wav", 10, 50, 1⟩)]
        [("a", ⟨"a.wav", 5, 200, 1⟩)] ["s"] ["a"] [] []).map
      (fun c => (c.aliasStr, c.is_fuzzy, c.fuzzy_from, c.consonant_info)) =
      [("sha", true, "s+a", ⟨"s.wav", 10, 50, 1⟩),
       ("shai", true, "s+a", ⟨"s.wav", 10, 50, 1⟩),
       ("shao", true, "s+a", ⟨"s.wav", 10, 50, 1⟩),
       ("sai", true, "s+a", ⟨"s.wav", 10, 50, 1⟩),
       ("sao", true, "s+a", ⟨"s.wav", 10, 50, 1⟩)]) := by
  constructor
  · intro consonants vowels availC availV existing normals cand hmem
    unfold generate_fuzzy_candidates at hmem
    obtain ⟨hgen, tc, tv, hpair, h1, h2, h3, ac, av, hac, hav, hne, hci, hvi⟩ :=
      fuzzyLoop_mem consonants vowels availC availV _ _ cand hmem
    have hgen := (by constructor <;> simp_all [List.elem_eq_mem] :
      (normals.map (fun c => c.base_alias)).contains cand.aliasStr = false ∧
      existing.contains cand.aliasStr = false)
    obtain ⟨tc0, htc0, hmem2⟩ := List.mem_flatMap.mp hpair
    obtain ⟨tv0, htv0, heq0⟩ := List.mem_map.mp hmem2
    have hp := Prod.mk.inj heq0
    rw [hp.1] at htc0
    rw [hp.2] at htv0
    exact ⟨h3, hgen.2, hgen.1, tc, tv, ac, av, htc0, htv0, h1, hac, hav, hne,
      hci, hvi⟩
  · with_unfolding_all decide

set_option maxRecDepth 4000000 in
/-- C8 witness: the general part applied to the sha candidate produced in
the scenario run (consonant s and vowel a available, target sh). -/
theorem c8_fuzzy_substitution_witness :
    ({ aliasStr := "sha", base_alias := "sha",
       consonant_info := ⟨"s.wav", 10, 50, 1⟩,
       vowel_info := ⟨"a.wav", 5, 200, 1⟩, is_fuzzy := true,
       fuzzy_from := "s+a" } : Candidate).is_fuzzy = true ∧
    ([] : List String).contains "sha" = false ∧
    (([] : List Candidate).map (fun c => c.base_alias)).contains "sha" = false ∧
    (∃ tc tv ac av, tc ∈ all_consonants ∧ tv ∈ all_vowels ∧
      "sha" = tc ++ tv ∧
      resolveAxis tc ["s"] FUZZY_CONSONANT_GROUPS = some ac ∧
      resolveAxis tv ["a"] FUZZY_VOWEL_GROUPS = some av ∧
      ¬ (ac = tc ∧ av = tv) ∧
      ([("s", ⟨"s.wav", 10, 50, 1⟩)] : List (String × PhonemeInfo)).lookup ac =
        some (⟨"s.wav", 10, 50, 1⟩ : PhonemeInfo) ∧
      ([("a", ⟨"a.wav", 5, 200, 1⟩)] : List (String × PhonemeInfo)).lookup av =
        some (⟨"a.wav", 5, 200, 1⟩ : PhonemeInfo)) :=
  c8_fuzzy_substitution.1 [("s", ⟨"s.wav", 10, 50, 1⟩)]
    [("a", ⟨"a.wav", 5, 200, 1⟩)] ["s"] ["a"] [] []
    { aliasStr := "sha", base_alias := "sha",
      consonant_info := ⟨"s.wav", 10, 50, 1⟩,
      vowel_info := ⟨"a.wav", 5, 200, 1⟩, is_fuzzy := true,
      fuzzy_from := "s+a" }
    (by with_unfolding_all decide)

/-- Well-formedness passes to the tail. -/
theorem wfTier_tail {x : Iv} {l : List Iv} (h : wfTier (x :: l) = true) :
    wfTier l = true := by
  cases l with
  | nil => rfl
  | cons y ys =>
    simp only [wfTier, Bool.and_eq_true] at h
    exact h.2

/-- The head of a well-formed tier has nonnegative length. -/
theorem wfTier_head {x : Iv} {l : List Iv} (h : wfTier (x :: l) = true) :
    x.minTime ≤ x.maxTime := by
  cases l with
  | nil => simpa [wfTier] using h
  | cons y ys =>
    simp only [wfTier, Bool.and_eq_true, decide_eq_true_eq] at h
    exact h.1.1

/-- Adjacent intervals of a well-formed tier are contiguous. -/
theorem wfTier_link {x y : Iv} {l : List Iv} (h : wfTier (x :: y :: l) = true) :
    x.maxTime = y.minTime := by
  simp only [wfTier, Bool.and_eq_true, decide_eq_true_eq] at h
  exact h.1.2

/-- Dropping intervals preserves well-formedness. -/
theorem wfTier_drop (n : ℕ) : ∀ l, wfTier l = true → wfTier (l.drop n) = true := by
  induction n with
  | zero => intro l h; exact h
  | succ k ih =>
    intro l h
    cases l with
    | nil => exact h
    | cons x xs => exact ih xs (wfTier_tail h)

/-- In a well-formed tier whose head starts at or after `t`, every
interval lies at or after `t`. -/
theorem wfTier_lb (x : Iv) (rest : List Iv) :
    ∀ {t : ℚ}, wfTier (x :: rest) = true → t ≤ x.minTime →
      ∀ iv ∈ x :: rest, t ≤ iv.minTime ∧ t ≤ iv.maxTime := by
  induction rest generalizing x with
  | nil =>
    intro t h ht iv hiv
    rw [List.mem_singleton] at hiv
    subst hiv
    exact ⟨ht, le_trans ht (wfTier_head h)⟩
  | cons y ys ih =>
    intro t h ht iv hiv
    rcases List.mem_cons.mp hiv with rfl | hiv2
    · exact ⟨ht, le_trans ht (wfTier_head h)⟩
    · have hy : t ≤ y.minTime := by
        have h1 := wfTier_head h
        have h2 := wfTier_link h
        linarith
      exact ih y (wfTier_tail h) hy iv hiv2

/-- Characterization of a successful coda stage of the Chinese CV
parse. -/
theorem cvCodaZh_char (wr : List (ℚ × ℚ)) (anchor : Iv) (cons med : Option Iv)
    (cand : Iv) (cd : ℚ) (consumed : ℕ) (rest : List Iv) (syl : SylZh) (n : ℕ)
    (h : cvCodaZh wr anchor cons med cand cd consumed rest = (some syl, n)) :
    syl.anchor = anchor ∧ syl.consonant = cons ∧ syl.medial = med ∧
    syl.vowel = cand ∧ syl.syllable_start = anchor.minTime * 1000 ∧
    syl.consonant_duration = cd ∧
    ((syl.coda = none ∧ syl.syllable_end = cand.maxTime * 1000 ∧
        n = consumed + 1) ∨
     (∃ w ws, rest = w :: ws ∧ syl.coda = some w ∧
        syl.syllable_end = w.maxTime * 1000 ∧ n = consumed + 2 ∧
        sameWord wr anchor.minTime w.minTime = true)) := by
  cases rest with
  | nil =>
    unfold cvCodaZh at h
    dsimp only at h
    have hs := Prod.mk.inj h
    have hsyl := (Option.some.inj hs.1).symm
    subst hsyl
    exact ⟨rfl, rfl, rfl, rfl, rfl, rfl, Or.inl ⟨rfl, rfl, hs.2.symm⟩⟩
  | cons w ws =>
    unfold cvCodaZh at h
    dsimp only at h
    split_ifs at h with hcond
    · have hs := Prod.mk.inj h
      have hsyl := (Option.some.inj hs.1).symm
      subst hsyl
      exact ⟨rfl, rfl, rfl, rfl, rfl, rfl,
        Or.inr ⟨w, ws, rfl, rfl, rfl, hs.2.symm, hcond.2.1⟩⟩
    · have hs := Prod.mk.inj h
      have hsyl := (Option.some.inj hs.1).symm
      subst hsyl
      exact ⟨rfl, rfl, rfl, rfl, rfl, rfl, Or.inl ⟨rfl, rfl, hs.2.symm⟩⟩

/-- Characterization of a successful vowel stage of the Chinese CV
parse. -/
theorem cvVowelZh_char (wr : List (ℚ × ℚ)) (anchor : Iv) (cons med : Option Iv)
    (cand : Iv) (cdIn : ℚ) (consumed : ℕ) (rest : List Iv) (syl : SylZh) (n : ℕ)
    (h : cvVowelZh wr anchor cons med cand cdIn consumed rest = (some syl, n)) :
    is_vowel cand.mark.trim .zh = true ∧
    cvCodaZh wr anchor cons med cand
      (if cdIn = 0 then
        min 30 ((cand.maxTime * 1000 - anchor.minTime * 1000) * (0.2 : ℚ))
      else cdIn) consumed rest = (some syl, n) := by
  unfold cvVowelZh at h
  by_cases hv : is_vowel cand.mark.trim .zh = true
  · rw [if_pos hv] at h
    exact ⟨hv, h⟩
  · rw [if_neg hv] at h
    simp at h

/-- Characterization of a successful medial stage of the Chinese CV
parse. -/
theorem cvMedialZh_char (wr : List (ℚ × ℚ)) (anchor : Iv) (cons : Option Iv)
    (cand : Iv) (cd : ℚ) (consumed : ℕ) (rest : List Iv) (syl : SylZh) (n : ℕ)
    (h : cvMedialZh wr anchor cons cand cd consumed rest = (some syl, n)) :
    (CHINESE_MEDIALS.contains (stripTone cand.mark.trim) = true ∧
     ∃ z rest2, rest = z :: rest2 ∧
       ¬ SKIP_MARKS.contains z.mark.trim = true ∧
       sameWord wr anchor.minTime z.minTime = true ∧
       cvVowelZh wr anchor cons (some cand) z cd (consumed + 1) rest2 =
         (some syl, n)) ∨
    (CHINESE_MEDIALS.contains (stripTone cand.mark.trim) = false ∧
     cvVowelZh wr anchor cons none cand cd consumed rest = (some syl, n)) := by
  unfold cvMedialZh at h
  by_cases hmed : CHINESE_MEDIALS.contains (stripTone cand.mark.trim) = true
  · rw [if_pos hmed] at h
    cases rest with
    | nil => dsimp only at h; simp at h
    | cons z rest2 =>
      dsimp only at h
      split_ifs at h with hcond
      · exact Or.inl ⟨hmed, z, rest2, rfl, hcond.1, hcond.2, h⟩
      · simp at h
  · rw [if_neg hmed] at h
    exact Or.inr ⟨Bool.of_not_eq_true hmed, h⟩

/-- Characterization of a successful Chinese CV step. -/
theorem cvStepZh_char (wr : List (ℚ × ℚ)) (l : List Iv) (syl : SylZh) (n : ℕ)
    (h : cvStepZh wr l = (some syl, n)) :
    ∃ x rest, l = x :: rest ∧ ¬ SKIP_MARKS.contains x.mark.trim = true ∧
    ((is_consonant x.mark.trim .zh = true ∧
      ∃ y rest2, rest = y :: rest2 ∧
        ¬ SKIP_MARKS.contains y.mark.trim = true ∧
        sameWord wr x.minTime y.minTime = true ∧
        cvMedialZh wr x (some x) y (x.maxTime * 1000 - x.minTime * 1000) 1
          rest2 = (some syl, n)) ∨
     (is_consonant x.mark.trim .zh = false ∧
      cvMedialZh wr x none x 0 0 rest = (some syl, n))) := by
  cases l with
  | nil => simp [cvStepZh] at h
  | cons x rest =>
    unfold cvStepZh at h
    dsimp only at h
    by_cases hskip : SKIP_MARKS.contains x.mark.trim = true
    · rw [if_pos hskip] at h
      simp at h
    · rw [if_neg hskip] at h
      refine ⟨x, rest, rfl, hskip, ?_⟩
      by_cases hcons : is_consonant x.mark.trim .zh = true
      · rw [if_pos hcons] at h
        cases rest with
        | nil => dsimp only at h; simp at h
        | cons y rest2 =>
          dsimp only at h
          split_ifs at h with hcond
          · exact Or.inl ⟨hcons, y, rest2, rfl, hcond.1, hcond.2, h⟩
          · simp at h
      · rw [if_neg hcons] at h
        exact Or.inr ⟨Bool.of_not_eq_true hcons, h⟩

/-- In a well-formed tier, every interval after the head starts at or
after the head's end. -/
theorem wfTier_le {x : Iv} {rest : List Iv} (h : wfTier (x :: rest) = true) :
    ∀ iv ∈ rest, x.maxTime ≤ iv.minTime := by
  induction rest generalizing x with
  | nil => intro iv hiv; simp at hiv
  | cons y ys ih =>
    intro iv hiv
    rcases List.mem_cons.mp hiv with rfl | hiv2
    · exact le_of_eq (wfTier_link h)
    · have h1 := wfTier_link h
      have h2 := wfTier_head (wfTier_tail h)
      have h3 := ih (wfTier_tail h) iv hiv2
      linarith

/-- Envelope bounds delivered by the coda stage: nonnegative onset
duration contained in the syllable span. -/
theorem cvCodaZh_bounds (wr : List (ℚ × ℚ)) (anchor : Iv) (cons med : Option Iv)
    (cand : Iv) (cd : ℚ) (consumed : ℕ) (rest : List Iv) (syl : SylZh) (n : ℕ)
    (h : cvCodaZh wr anchor cons med cand cd consumed rest = (some syl, n))
    (hwf : wfTier (cand :: rest) = true)
    (hcd : 0 ≤ cd) (hle : anchor.minTime * 1000 + cd ≤ cand.maxTime * 1000) :
    0 ≤ syl.consonant_duration ∧
    syl.syllable_start + syl.consonant_duration ≤ syl.syllable_end := by
  obtain ⟨-, -, -, -, hss, hcdur, hcase⟩ :=
    cvCodaZh_char wr anchor cons med cand cd consumed rest syl n h
  rcases hcase with ⟨-, hse, -⟩ | ⟨w, ws, hrest, -, hse, -, -⟩
  · rw [hss, hcdur, hse]; exact ⟨hcd, hle⟩
  · subst hrest
    have h1 : cand.maxTime = w.minTime := wfTier_link hwf
    have h2 : w.minTime ≤ w.maxTime := wfTier_head (wfTier_tail hwf)
    rw [hss, hcdur, hse]
    exact ⟨hcd, by linarith⟩

/-- Envelope bounds delivered by the vowel stage (including the
re-synthesized onset duration of a zero-length onset). -/
theorem cvVowelZh_bounds (wr : List (ℚ × ℚ)) (anchor : Iv) (cons med : Option Iv)
    (cand : Iv) (cdIn : ℚ) (consumed : ℕ) (rest : List Iv) (syl : SylZh) (n : ℕ)
    (h : cvVowelZh wr anchor cons med cand cdIn consumed rest = (some syl, n))
    (hwf : wfTier (cand :: rest) = true)
    (hcd : 0 ≤ cdIn) (hle : anchor.minTime * 1000 + cdIn ≤ cand.maxTime * 1000) :
    0 ≤ syl.consonant_duration ∧
    syl.syllable_start + syl.consonant_duration ≤ syl.syllable_end := by
  obtain ⟨hv, h2⟩ :=
    cvVowelZh_char wr anchor cons med cand cdIn consumed rest syl n h
  by_cases h0 : cdIn = 0
  · rw [if_pos h0] at h2
    rw [h0] at hle
    have hd : (0:ℚ) ≤ cand.maxTime * 1000 - anchor.minTime * 1000 := by linarith
    have hd2 : (0:ℚ) ≤ (cand.maxTime * 1000 - anchor.minTime * 1000) * (0.2 : ℚ) :=
      mul_nonneg hd (by norm_num)
    have hd3 : (cand.maxTime * 1000 - anchor.minTime * 1000) * (0.2 : ℚ) ≤
        (cand.maxTime * 1000 - anchor.minTime * 1000) * 1 :=
      mul_le_mul_of_nonneg_left (by norm_num) hd
    refine cvCodaZh_bounds wr anchor cons med cand _ consumed rest syl n h2 hwf
      (le_min (by norm_num) hd2) ?_
    have hm := min_le_right (30 : ℚ)
      ((cand.maxTime * 1000 - anchor.minTime * 1000) * (0.2 : ℚ))
    linarith
  · rw [if_neg h0] at h2
    exact cvCodaZh_bounds wr anchor cons med cand cdIn consumed rest syl n h2 hwf hcd hle

/-- Envelope bounds delivered by the medial stage. -/
theorem cvMedialZh_bounds (wr : List (ℚ × ℚ)) (anchor : Iv) (cons : Option Iv)
    (cand : Iv) (cd : ℚ) (consumed : ℕ) (rest : List Iv) (syl : SylZh) (n : ℕ)
    (h : cvMedialZh wr anchor cons cand cd consumed rest = (some syl, n))
    (hwf : wfTier (cand :: rest) = true)
    (hcd : 0 ≤ cd) (hle : anchor.minTime * 1000 + cd ≤ cand.maxTime * 1000) :
    0 ≤ syl.consonant_duration ∧
    syl.syllable_start + syl.consonant_duration ≤ syl.syllable_end := by
  rcases cvMedialZh_char wr anchor cons cand cd consumed rest syl n h with
    ⟨-, z, rest2, hrest, -, -, h2⟩ | ⟨-, h2⟩
  · subst hrest
    have h1 : cand.maxTime = z.minTime := wfTier_link hwf
    have h2' : z.minTime ≤ z.maxTime := wfTier_head (wfTier_tail hwf)
    exact cvVowelZh_bounds wr anchor cons (some cand) z cd (consumed + 1) rest2
      syl n h2 (wfTier_tail hwf) hcd (by linarith)
  · exact cvVowelZh_bounds wr anchor cons none cand cd consumed rest syl n h2 hwf hcd hle

/-- Every syllable produced by a successful Chinese CV step on a
well-formed tier has a nonnegative onset duration contained in the
syllable span. -/
theorem cvStepZh_bounds (wr : List (ℚ × ℚ)) (l : List Iv) (syl : SylZh) (n : ℕ)
    (h : cvStepZh wr l = (some syl, n)) (hwf : wfTier l = true) :
    0 ≤ syl.consonant_duration ∧
    syl.syllable_start + syl.consonant_duration ≤ syl.syllable_end := by
  obtain ⟨x, rest, hl, -, hcase⟩ := cvStepZh_char wr l syl n h
  subst hl
  rcases hcase with ⟨-, y, rest2, hrest, -, -, h2⟩ | ⟨-, h2⟩
  · subst hrest
    have hx : x.minTime ≤ x.maxTime := wfTier_head hwf
    have hxy : x.maxTime = y.minTime := wfTier_link hwf
    have hy : y.minTime ≤ y.maxTime := wfTier_head (wfTier_tail hwf)
    exact cvMedialZh_bounds wr x (some x) y _ 1 rest2 syl n h2 (wfTier_tail hwf)
      (by linarith) (by linarith)
  · have hx : x.minTime ≤ x.maxTime := wfTier_head hwf
    exact cvMedialZh_bounds wr x none x 0 0 rest syl n h2 hwf le_rfl (by linarith)

/-- Induction principle for the Chinese CV while-loop: any per-step
property of emitted syllables, under any list invariant preserved by
`drop`, holds for every parsed syllable. -/
theorem cvParseZh_all (wr : List (ℚ × ℚ)) (Q : List Iv → Prop) (P : SylZh → Prop)
    (hQdrop : ∀ n l, Q l → Q (List.drop n l))
    (hstep : ∀ l, Q l → ∀ syl n, cvStepZh wr l = (some syl, n) → P syl) :
    ∀ N l, l.length ≤ N → Q l → ∀ syl ∈ cvParseZh wr l, P syl := by
  intro N
  induction N with
  | zero =>
    intro l hlen _ syl hmem
    have hnil : l = [] := List.eq_nil_of_length_eq_zero (Nat.le_zero.mp hlen)
    subst hnil
    simp [cvParseZh] at hmem
  | succ k ih =>
    intro l hlen hQ syl hmem
    cases l with
    | nil => simp [cvParseZh] at hmem
    | cons x rest =>
      simp only [cvParseZh, List.mem_append] at hmem
      rcases hstepv : cvStepZh wr (x :: rest) with ⟨o, cnt⟩
      rw [hstepv] at hmem
      rcases hmem with h1 | h2
      · cases o with
        | none => simp at h1
        | some s =>
          simp only [List.mem_singleton] at h1
          subst h1
          exact hstep (x :: rest) hQ syl cnt hstepv
      · refine ih (rest.drop (cnt - 1)) ?_ ?_ syl h2
        · simp only [List.length_drop]
          have : rest.length ≤ k := by
            simpa using Nat.lt_succ_iff.mp (Nat.lt_of_lt_of_le (by simp) hlen)
          omega
        · have hQr : Q rest := by
            have := hQdrop 1 (x :: rest) hQ
            simpa using this
          exact hQdrop _ rest hQr

/-- Ordering facts about the unit produced by a successful Japanese CV
step on a well-formed tier. -/
theorem cvStepJa_facts (wr : List (ℚ × ℚ)) (l : List Iv) (syl : SylJa) (n : ℕ)
    (h : cvStepJa wr l = (some syl, n)) (hwf : wfTier l = true) :
    (∀ c v, syl = .cv c (some v) → c.minTime ≤ c.maxTime ∧ c.maxTime ≤ v.maxTime) ∧
    (∀ c, syl = .cv c none → c.minTime ≤ c.maxTime) ∧
    (∀ v, syl = .vOnly v → v.minTime ≤ v.maxTime) := by
  cases l with
  | nil => simp [cvStepJa] at h
  | cons x rest =>
    unfold cvStepJa at h
    dsimp only at h
    have hx := wfTier_head hwf
    by_cases hskip : SKIP_MARKS.contains x.mark.trim = true
    · rw [if_pos hskip] at h; simp at h
    · rw [if_neg hskip] at h
      by_cases hcons : is_consonant x.mark.trim .ja = true
      · rw [if_pos hcons] at h
        cases rest with
        | nil =>
          dsimp only at h
          have hsyl : SylJa.cv x none = syl := Option.some.inj (Prod.mk.inj h).1
          subst hsyl
          refine ⟨?_, ?_, ?_⟩
          · intro c v hcv; simp at hcv
          · intro c hc
            rw [SylJa.cv.injEq] at hc
            exact hc.1 ▸ hx
          · intro v hv; simp at hv
        | cons y ys =>
          dsimp only at h
          split_ifs at h with hcond
          · have hsyl : SylJa.cv x (some y) = syl := Option.some.inj (Prod.mk.inj h).1
            subst hsyl
            have hxy : x.maxTime = y.minTime := wfTier_link hwf
            have hy : y.minTime ≤ y.maxTime := wfTier_head (wfTier_tail hwf)
            refine ⟨?_, ?_, ?_⟩
            · intro c v hcv
              rw [SylJa.cv.injEq] at hcv
              obtain ⟨hc1, hc2⟩ := hcv
              have hv2 : y = v := Option.some.inj hc2
              rw [← hc1, ← hv2]
              exact ⟨hx, by linarith⟩
            · intro c hc; simp at hc
            · intro v hv; simp at hv
          · have hsyl : SylJa.cv x none = syl := Option.some.inj (Prod.mk.inj h).1
            subst hsyl
            refine ⟨?_, ?_, ?_⟩
            · intro c v hcv; simp at hcv
            · intro c hc
              rw [SylJa.cv.injEq] at hc
              exact hc.1 ▸ hx
            · intro v hv; simp at hv
      · rw [if_neg hcons] at h
        by_cases hvow : is_vowel x.mark.trim .ja = true
        · rw [if_pos hvow] at h
          have hsyl : SylJa.vOnly x = syl := Option.some.inj (Prod.mk.inj h).1
          subst hsyl
          refine ⟨?_, ?_, ?_⟩
          · intro c v hcv; simp at hcv
          · intro c hc; simp at hc
          · intro v hv
            rw [SylJa.vOnly.injEq] at hv
            exact hv ▸ hx
        · rw [if_neg hvow] at h; simp at h

/-- Any entry emitted for a Japanese unit satisfying the step's ordering
facts obeys the (amended) envelope invariant. -/
theorem sylJaEntry_inv (wav : String) (dur ratio : ℚ) (hira : Bool) (syl : SylJa)
    (hr : 0 ≤ ratio)
    (hf : (∀ c v, syl = .cv c (some v) → c.minTime ≤ c.maxTime ∧ c.maxTime ≤ v.maxTime) ∧
          (∀ c, syl = .cv c none → c.minTime ≤ c.maxTime) ∧
          (∀ v, syl = .vOnly v → v.minTime ≤ v.maxTime))
    (e : OtoEntry) (he : sylJaEntry wav dur ratio hira syl = some e) :
    entryInv e := by
  cases syl with
  | cv c vow =>
    cases vow with
    | none =>
      have hc := hf.2.1 c rfl
      unfold sylJaEntry at he
      dsimp only at he
      split at he
      · split_ifs at he with ha0
        have he2 := Option.some.inj he
        rw [← he2]
        exact calcOto_inv _ _ _ _ _ _ _ (by linarith) (by linarith) hr
      · simp at he
    | some v =>
      have hc := hf.1 c v rfl
      unfold sylJaEntry at he
      dsimp only at he
      split at he
      · split_ifs at he with ha0
        have he2 := Option.some.inj he
        rw [← he2]
        refine calcOto_inv _ _ _ _ _ _ _ (by linarith [hc.1]) ?_ hr
        have := hc.2
        linarith
      · simp at he
  | vOnly v =>
    have hv := hf.2.2 v rfl
    unfold sylJaEntry at he
    dsimp only at he
    split at he
    · split_ifs at he with ha0
      have he2 := Option.some.inj he
      rw [← he2]
      have hd : (0:ℚ) ≤ v.maxTime * 1000 - v.minTime * 1000 := by linarith
      have hd2 : (0:ℚ) ≤ (v.maxTime * 1000 - v.minTime * 1000) * (0.2 : ℚ) :=
        mul_nonneg hd (by norm_num)
      have hd3 : (v.maxTime * 1000 - v.minTime * 1000) * (0.2 : ℚ) ≤
          (v.maxTime * 1000 - v.minTime * 1000) * 1 :=
        mul_le_mul_of_nonneg_left (by norm_num) hd
      have hm := min_le_right (30 : ℚ) ((v.maxTime * 1000 - v.minTime * 1000) * (0.2 : ℚ))
      exact calcOto_inv _ _ _ _ _ _ _ (le_min (by norm_num) hd2) (by linarith) hr
    · simp at he

/-- Induction principle for the Japanese CV while-loop. -/
theorem cvParseJa_all (wr : List (ℚ × ℚ)) (Q : List Iv → Prop) (P : SylJa → Prop)
    (hQdrop : ∀ n l, Q l → Q (List.drop n l))
    (hstep : ∀ l, Q l → ∀ syl n, cvStepJa wr l = (some syl, n) → P syl) :
    ∀ N l, l.length ≤ N → Q l → ∀ syl ∈ cvParseJa wr l, P syl := by
  intro N
  induction N with
  | zero =>
    intro l hlen _ syl hmem
    have hnil : l = [] := List.eq_nil_of_length_eq_zero (Nat.le_zero.mp hlen)
    subst hnil
    simp [cvParseJa] at hmem
  | succ k ih =>
    intro l hlen hQ syl hmem
    cases l with
    | nil => simp [cvParseJa] at hmem
    | cons x rest =>
      simp only [cvParseJa, List.mem_append] at hmem
      rcases hstepv : cvStepJa wr (x :: rest) with ⟨o, cnt⟩
      rw [hstepv] at hmem
      rcases hmem with h1 | h2
      · cases o with
        | none => simp at h1
        | some s =>
          simp only [List.mem_singleton] at h1
          subst h1
          exact hstep (x :: rest) hQ syl cnt hstepv
      · refine ih (rest.drop (cnt - 1)) ?_ ?_ syl h2
        · simp only [List.length_drop]
          have : rest.length ≤ k := by
            simpa using Nat.lt_succ_iff.mp (Nat.lt_of_lt_of_le (by simp) hlen)
          omega
        · have hQr : Q rest := by
            have := hQdrop 1 (x :: rest) hQ
            simpa using this
          exact hQdrop _ rest hQr

/-- The three Chinese medials are members of `CHINESE_CONSONANTS`, so a
zero-initial syllable's anchor phone is never a medial. -/
theorem medials_subset (s : String) (h : CHINESE_MEDIALS.contains s = true) :
    CHINESE_CONSONANTS.contains s = true := by
  have hm : s ∈ CHINESE_MEDIALS := by
    have h' : CHINESE_MEDIALS.elem s = true := h
    simpa [List.elem_eq_mem] using h'
  simp only [CHINESE_MEDIALS, List.mem_cons, List.not_mem_nil, or_false] at hm
  rcases hm with rfl | rfl | rfl <;> decide

/-- Dropping one more element past a known suffix. -/
theorem drop_succ_eq {α : Type _} (L : List α) (k : ℕ) (x : α) (xs : List α)
    (h : List.drop k L = x :: xs) : List.drop (k + 1) L = xs := by
  induction k generalizing L with
  | zero =>
    rw [List.drop_zero] at h
    subst h
    simp
  | succ m ih =>
    cases L with
    | nil => simp at h
    | cons a as =>
      rw [List.drop_succ_cons] at h
      rw [List.drop_succ_cons]
      exact ih as h

/-- Full description of the syllable produced by the vowel/coda stage of
the `_extract_vc_pairs` parse: identity of the consumed intervals, the
`vowel_end = syllable_end` identity, ordering of the vowel span, the
onset-duration formula, and bounds against the unconsumed suffix of the
ambient list `L`. -/
theorem vcVowelStage_full (L : List Iv) (anchor : Iv) (cons med : Option Iv)
    (cand : Iv) (vowel_start sylEndIn cd0 : ℚ) (consumed : ℕ) (rest : List Iv)
    (syl : SylVcRaw) (n : ℕ)
    (h : vcVowelStage anchor cons med cand vowel_start sylEndIn cd0 consumed rest = (some syl, n))
    (hwfr : wfTier rest = true)
    (har : ∀ iv ∈ rest, anchor.maxTime ≤ iv.minTime)
    (hvs : vowel_start ≤ anchor.maxTime * 1000)
    (hanch : anchor.minTime ≤ anchor.maxTime)
    (hsuf : List.drop (consumed + 1) L = rest) :
    (syl.anchor = anchor ∧ syl.consonant = cons ∧ syl.medial = med ∧ syl.vowel = cand) ∧
    syl.vowel_start = vowel_start ∧
    syl.vowel_end = syl.syllable_end ∧
    syl.vowel_start ≤ syl.vowel_end ∧
    syl.syllable_start = anchor.minTime * 1000 ∧
    syl.consonant_duration =
      (if cd0 = 0 then min 30 ((anchor.maxTime * 1000 - vowel_start) * (0.2 : ℚ)) else cd0) ∧
    anchor.minTime * 1000 ≤ syl.syllable_end ∧
    (∀ iv ∈ List.drop n L, syl.syllable_end ≤ iv.minTime * 1000) ∧
    1 ≤ n := by
  unfold vcVowelStage at h
  dsimp only at h
  by_cases hv : is_vowel cand.mark.trim .zh = true
  · rw [if_pos hv] at h
    cases rest with
    | nil =>
      dsimp only at h
      have hsyl := (Option.some.inj (Prod.mk.inj h).1).symm
      have hn := (Prod.mk.inj h).2.symm
      subst hsyl
      subst hn
      refine ⟨⟨rfl, rfl, rfl, rfl⟩, rfl, rfl, hvs, rfl, rfl, by linarith, ?_, by omega⟩
      intro iv hiv
      rw [hsuf] at hiv
      simp at hiv
    | cons w ws =>
      dsimp only at h
      by_cases hcond : (¬ SKIP_MARKS.contains w.mark.trim = true ∧
          CHINESE_CODAS.contains (stripTone w.mark.trim) = true)
      · rw [if_pos hcond] at h
        have hsyl := (Option.some.inj (Prod.mk.inj h).1).symm
        have hn := (Prod.mk.inj h).2.symm
        subst hsyl
        subst hn
        have hwmin : anchor.maxTime ≤ w.minTime := har w (by simp)
        have hwlen : w.minTime ≤ w.maxTime := wfTier_head hwfr
        refine ⟨⟨rfl, rfl, rfl, rfl⟩, rfl, rfl, by linarith, rfl, rfl, by linarith, ?_, by omega⟩
        intro iv hiv
        have hd : List.drop (consumed + 2) L = ws :=
          drop_succ_eq L (consumed + 1) w ws hsuf
        rw [hd] at hiv
        have := wfTier_le hwfr iv hiv
        linarith
      · rw [if_neg hcond] at h
        have hsyl := (Option.some.inj (Prod.mk.inj h).1).symm
        have hn := (Prod.mk.inj h).2.symm
        subst hsyl
        subst hn
        refine ⟨⟨rfl, rfl, rfl, rfl⟩, rfl, rfl, hvs, rfl, rfl, by linarith, ?_, by omega⟩
        intro iv hiv
        rw [hsuf] at hiv
        have h1 := har iv hiv
        linarith
  · rw [if_neg hv] at h
    simp at h

/-- Full description of the syllable produced by the medial stage of the
`_extract_vc_pairs` parse. -/
theorem vcMedialStage_full (L : List Iv) (anchor : Iv) (cons : Option Iv)
    (cand : Iv) (vowel_start sylEnd cd : ℚ) (consumed : ℕ) (rest : List Iv)
    (syl : SylVcRaw) (n : ℕ)
    (h : vcMedialStage anchor cons cand vowel_start sylEnd cd consumed rest = (some syl, n))
    (hwfr : wfTier rest = true)
    (har : ∀ iv ∈ rest, anchor.maxTime ≤ iv.minTime)
    (hvs : vowel_start ≤ anchor.maxTime * 1000)
    (hanch : anchor.minTime ≤ anchor.maxTime)
    (hsuf : List.drop (consumed + 1) L = rest) :
    (syl.anchor = anchor ∧ syl.consonant = cons ∧
      (CHINESE_MEDIALS.contains (stripTone cand.mark.trim) = false →
        syl.medial = none ∧ syl.vowel = cand)) ∧
    syl.vowel_start = vowel_start ∧
    syl.vowel_end = syl.syllable_end ∧
    syl.vowel_start ≤ syl.vowel_end ∧
    syl.syllable_start = anchor.minTime * 1000 ∧
    syl.consonant_duration =
      (if cd = 0 then min 30 ((anchor.maxTime * 1000 - vowel_start) * (0.2 : ℚ)) else cd) ∧
    anchor.minTime * 1000 ≤ syl.syllable_end ∧
    (∀ iv ∈ List.drop n L, syl.syllable_end ≤ iv.minTime * 1000) ∧
    1 ≤ n := by
  unfold vcMedialStage at h
  by_cases hmed : CHINESE_MEDIALS.contains (stripTone cand.mark.trim) = true
  · rw [if_pos hmed] at h
    cases rest with
    | nil => dsimp only at h; simp at h
    | cons z rest2 =>
      dsimp only at h
      by_cases hz : SKIP_MARKS.contains z.mark.trim = true
      · rw [if_neg (not_not_intro hz)] at h
        simp at h
      · rw [if_pos hz] at h
        have hsuf2 : List.drop (consumed + 1 + 1) L = rest2 :=
          drop_succ_eq L (consumed + 1) z rest2 hsuf
        obtain ⟨h1, h2', h3, h4, h5, h6, h7, h8, h9⟩ :=
          vcVowelStage_full L anchor cons (some cand) z vowel_start
            (z.maxTime * 1000) cd (consumed + 1) rest2 syl n h
            (wfTier_tail hwfr) (fun iv hiv => har iv (by simp [hiv])) hvs hanch hsuf2
        exact ⟨⟨h1.1, h1.2.1, fun hf => by rw [hf] at hmed; exact absurd hmed (by simp)⟩,
          h2', h3, h4, h5, h6, h7, h8, h9⟩
  · rw [if_neg hmed] at h
    obtain ⟨h1, h2', h3, h4, h5, h6, h7, h8, h9⟩ :=
      vcVowelStage_full L anchor cons none cand vowel_start sylEnd cd consumed
        rest syl n h hwfr har hvs hanch hsuf
    exact ⟨⟨h1.1, h1.2.1, fun _ => ⟨h1.2.2.1, h1.2.2.2⟩⟩, h2', h3, h4, h5, h6, h7, h8, h9⟩

/-- Facts about a successful step of the `_extract_vc_pairs` syllable
parse on a well-formed tier: the recorded vowel span is ordered,
`vowel_end` always equals `syllable_end` (the bug making the vowel span
end at the syllable's first phone notwithstanding), the syllable's end
lies below every unconsumed interval, above the head's start, and the
cursor advances by at least one. -/
theorem vcStep_full (l : List Iv) (syl : SylVcRaw) (n : ℕ)
    (h : vcStep l = (some syl, n)) (hwf : wfTier l = true) :
    syl.vowel_start ≤ syl.vowel_end ∧
    syl.vowel_end = syl.syllable_end ∧
    (∀ iv ∈ List.drop n l, syl.syllable_end ≤ iv.minTime * 1000) ∧
    (∃ x rest, l = x :: rest ∧ x.minTime * 1000 ≤ syl.syllable_end) ∧
    1 ≤ n := by
  cases l with
  | nil => simp [vcStep] at h
  | cons x rest =>
    unfold vcStep at h
    dsimp only at h
    have hx : x.minTime ≤ x.maxTime := wfTier_head hwf
    by_cases hskip : SKIP_MARKS.contains x.mark.trim = true
    · rw [if_pos hskip] at h; simp at h
    · rw [if_neg hskip] at h
      by_cases hcons : is_consonant x.mark.trim .zh = true
      · rw [if_pos hcons] at h
        cases rest with
        | nil => dsimp only at h; simp at h
        | cons y rest2 =>
          dsimp only at h
          by_cases hy : SKIP_MARKS.contains y.mark.trim = true
          · rw [if_neg (not_not_intro hy)] at h
            simp at h
          · rw [if_pos hy] at h
            have hxy : x.maxTime = y.minTime := wfTier_link hwf
            have hyy : y.minTime ≤ y.maxTime := wfTier_head (wfTier_tail hwf)
            obtain ⟨h1, h2', h3, h4, h5, h6, h7, h8, h9⟩ :=
              vcMedialStage_full (x :: y :: rest2) x (some x) y (y.minTime * 1000)
                (y.maxTime * 1000) (x.maxTime * 1000 - x.minTime * 1000) 1 rest2
                syl n h (wfTier_tail (wfTier_tail hwf))
                (fun iv hiv => by
                  have := wfTier_le (wfTier_tail hwf) iv hiv
                  linarith)
                (by linarith) hx rfl
            exact ⟨h4, h3, h8, ⟨x, y :: rest2, rfl, h7⟩, h9⟩
      · rw [if_neg hcons] at h
        obtain ⟨h1, h2', h3, h4, h5, h6, h7, h8, h9⟩ :=
          vcMedialStage_full (x :: rest) x none x (x.minTime * 1000)
            (x.maxTime * 1000) 0 0 rest syl n h (wfTier_tail hwf)
            (fun iv hiv => wfTier_le hwf iv hiv) (by linarith) hx rfl
        exact ⟨h4, h3, h8, ⟨x, rest, rfl, h7⟩, h9⟩

/-- Induction principle for the `_extract_vc_pairs` syllable-parsing
while-loop. -/
theorem vcParse_all (Q : List Iv → Prop) (P : SylVcRaw → Prop)
    (hQdrop : ∀ n l, Q l → Q (List.drop n l))
    (hstep : ∀ l, Q l → ∀ syl n, vcStep l = (some syl, n) → P syl) :
    ∀ N l, l.length ≤ N → Q l → ∀ syl ∈ vcParse l, P syl := by
  intro N
  induction N with
  | zero =>
    intro l hlen _ syl hmem
    have hnil : l = [] := List.eq_nil_of_length_eq_zero (Nat.le_zero.mp hlen)
    subst hnil
    simp [vcParse] at hmem
  | succ k ih =>
    intro l hlen hQ syl hmem
    cases l with
    | nil => simp [vcParse] at hmem
    | cons x rest =>
      simp only [vcParse, List.mem_append] at hmem
      rcases hstepv : vcStep (x :: rest) with ⟨o, cnt⟩
      rw [hstepv] at hmem
      rcases hmem with h1 | h2
      · cases o with
        | none => simp at h1
        | some s =>
          simp only [List.mem_singleton] at h1
          subst h1
          exact hstep (x :: rest) hQ syl cnt hstepv
      · refine ih (rest.drop (cnt - 1)) ?_ ?_ syl h2
        · simp only [List.length_drop]
          have : rest.length ≤ k := by
            simpa using Nat.lt_succ_iff.mp (Nat.lt_of_lt_of_le (by simp) hlen)
          omega
        · have hQr : Q rest := by
            have := hQdrop 1 (x :: rest) hQ
            simpa using this
          exact hQdrop _ rest hQr

/-- Every syllable parsed from a well-formed tier whose intervals all
start at or after `t` ends at or after `t`. -/
theorem vcParse_lb (t : ℚ) : ∀ N l, l.length ≤ N → wfTier l = true →
    (∀ iv ∈ l, t ≤ iv.minTime * 1000) →
    ∀ syl ∈ vcParse l, t ≤ syl.syllable_end := by
  intro N
  induction N with
  | zero =>
    intro l hlen _ _ syl hmem
    have hnil : l = [] := List.eq_nil_of_length_eq_zero (Nat.le_zero.mp hlen)
    subst hnil
    simp [vcParse] at hmem
  | succ k ih =>
    intro l hlen hwf hlb syl hmem
    cases l with
    | nil => simp [vcParse] at hmem
    | cons x rest =>
      simp only [vcParse, List.mem_append] at hmem
      rcases hstepv : vcStep (x :: rest) with ⟨o, cnt⟩
      rw [hstepv] at hmem
      rcases hmem with h1 | h2
      · cases o with
        | none => simp at h1
        | some s =>
          simp only [List.mem_singleton] at h1
          subst h1
          obtain ⟨-, -, -, ⟨x', rest', hxr, hle⟩, -⟩ :=
            vcStep_full (x :: rest) syl cnt hstepv hwf
          rw [List.cons.injEq] at hxr
          rw [← hxr.1] at hle
          have := hlb x (by simp)
          linarith
      · refine ih (rest.drop (cnt - 1)) ?_ (wfTier_drop _ _ (wfTier_tail hwf)) ?_ syl h2
        · simp only [List.length_drop]
          have : rest.length ≤ k := by
            simpa using Nat.lt_succ_iff.mp (Nat.lt_of_lt_of_le (by simp) hlen)
          omega
        · intro iv hiv
          exact hlb iv (List.mem_cons_of_mem x (List.drop_subset _ rest hiv))

/-- Syllables are recorded in order of nondecreasing end time. -/
theorem vcParse_pairwise : ∀ N l, l.length ≤ N → wfTier l = true →
    List.Pairwise (fun a b : SylVcRaw => a.syllable_end ≤ b.syllable_end)
      (vcParse l) := by
  intro N
  induction N with
  | zero =>
    intro l hlen _
    have hnil : l = [] := List.eq_nil_of_length_eq_zero (Nat.le_zero.mp hlen)
    subst hnil
    simp [vcParse]
  | succ k ih =>
    intro l hlen hwf
    cases l with
    | nil => simp [vcParse]
    | cons x rest =>
      have hlen2 : rest.length ≤ k := by
        simpa using Nat.lt_succ_iff.mp (Nat.lt_of_lt_of_le (by simp) hlen)
      have hlen3 : (rest.drop ((vcStep (x :: rest)).2 - 1)).length ≤ k := by
        simp only [List.length_drop]
        omega
      simp only [vcParse]
      rcases hstepv : vcStep (x :: rest) with ⟨o, cnt⟩
      cases o with
      | none =>
        simp only [List.nil_append]
        have := ih (rest.drop (cnt - 1)) (by rw [hstepv] at hlen3; exact hlen3)
          (wfTier_drop _ _ (wfTier_tail hwf))
        simpa using this
      | some s =>
        simp only [List.singleton_append, List.pairwise_cons]
        constructor
        · intro b hb
          obtain ⟨-, -, hsuffix, -, hpos⟩ := vcStep_full (x :: rest) s cnt hstepv hwf
          have hdrop : (x :: rest).drop cnt = rest.drop (cnt - 1) := by
            cases cnt with
            | zero => omega
            | succ m => simp
          rw [hdrop] at hsuffix
          exact vcParse_lb s.syllable_end (rest.drop (cnt - 1)).length
            (rest.drop (cnt - 1)) le_rfl (wfTier_drop _ _ (wfTier_tail hwf))
            hsuffix b hb
        · exact ih (rest.drop (cnt - 1)) (by rw [hstepv] at hlen3; exact hlen3)
            (wfTier_drop _ _ (wfTier_tail hwf))

/-- `toSylVc` copies the timing fields of the raw syllable verbatim. -/
theorem toSylVc_fields (s : SylVcRaw) (v : SylVc) (h : toSylVc s = some v) :
    v.vowel_start = s.vowel_start ∧ v.vowel_end = s.vowel_end ∧
    v.syllable_end = s.syllable_end := by
  unfold toSylVc at h
  rcases hpin : syllable_to_pinyin (sylVcPhones s) .zh false with _ | p
  · rw [hpin] at h
    simp at h
  · rw [hpin] at h
    dsimp only at h
    by_cases hp : p = ""
    · rw [if_pos hp] at h
      simp at h
    · rw [if_neg hp] at h
      rcases hfv : find_vowel_in_mapping p with _ | vp
      · rw [hfv] at h
        simp at h
      · rw [hfv] at h
        dsimp only at h
        have hv := (Option.some.inj h).symm
        subst hv
        exact ⟨rfl, rfl, rfl⟩

/-- Pairwise facts survive the `filterMap toSylVc` conversion. -/
theorem pairwise_filterMap_vc {R : SylVc → SylVc → Prop}
    {S : SylVcRaw → SylVcRaw → Prop}
    (himp : ∀ a b, S a b → ∀ x, toSylVc a = some x → ∀ y, toSylVc b = some y → R x y) :
    ∀ l : List SylVcRaw, List.Pairwise S l →
      List.Pairwise R (l.filterMap toSylVc) := by
  intro l
  induction l with
  | nil => intro _; simp
  | cons a tl ih =>
    intro h
    rw [List.pairwise_cons] at h
    cases ha : toSylVc a with
    | none =>
      simp only [List.filterMap_cons, ha]
      exact ih h.2
    | some x =>
      simp only [List.filterMap_cons, ha, List.pairwise_cons]
      refine ⟨?_, ih h.2⟩
      intro y hy
      rw [List.mem_filterMap] at hy
      obtain ⟨b, hb, hby⟩ := hy
      exact himp a b (h.1 b hb) x ha y hby

/-- The VC pair-generation loop emits only invariant-satisfying entries
when the recorded syllables have ordered vowel spans and nondecreasing
end times. -/
theorem mkVcEntries_inv (wav : String) (dur ro rv : ℚ) (sep : String)
    (hro : 0 ≤ ro) (hrv : 0 ≤ rv) :
    ∀ l : List SylVc, (∀ s ∈ l, s.vowel_start ≤ s.vowel_end) →
    List.Pairwise (fun a b : SylVc => a.vowel_end ≤ b.syllable_end) l →
    entryInvAll (mkVcEntries wav dur ro rv sep l) := by
  intro l
  induction l with
  | nil => intro _ _ e he; simp [mkVcEntries] at he
  | cons a tl ih =>
    intro h1 h2
    cases tl with
    | nil => intro e he; simp [mkVcEntries] at he
    | cons b rest =>
      intro e he
      simp only [mkVcEntries, List.mem_append] at he
      rcases he with he1 | he2
      · cases hb : b.consonant_part with
        | none => rw [hb] at he1; simp at he1
        | some c =>
          rw [hb] at he1
          simp only [List.mem_singleton] at he1
          subst he1
          exact calcVc_inv _ _ _ _ _ _ _ _ (h1 a (by simp))
            ((List.pairwise_cons.mp h2).1 b (by simp)) hro hrv
      · exact ih (fun s hs => h1 s (List.mem_cons_of_mem a hs))
          (List.Pairwise.of_cons h2) e he2

/-- Membership form of `posTier`. -/
theorem posTier_mem {l : List Iv} (h : posTier l = true) {iv : Iv}
    (hiv : iv ∈ l) : iv.minTime < iv.maxTime := by
  simp only [posTier, List.all_eq_true, decide_eq_true_eq] at h
  exact h iv hiv

/-- Dropping intervals preserves strict positivity. -/
theorem posTier_drop (n : ℕ) (l : List Iv) (h : posTier l = true) :
    posTier (List.drop n l) = true := by
  simp only [posTier, List.all_eq_true, decide_eq_true_eq] at h ⊢
  exact fun iv hiv => h iv (List.drop_subset n l hiv)

/-- A phone that is not a Chinese consonant is not a Chinese medial
(the medials are listed among the consonants). -/
theorem not_medial_of_not_consonant (s : String)
    (h : is_consonant s .zh = false) :
    CHINESE_MEDIALS.contains (stripTone s) = false := by
  by_cases hm : CHINESE_MEDIALS.contains (stripTone s) = true
  · have h2 := medials_subset _ hm
    simp only [is_consonant] at h
    rw [h2] at h
    simp at h
  · simpa using hm

/-- C6 facts for one Chinese CV step: a consumed consonant pins the onset
duration to the consonant's span, and a zero-initial syllable gets the
synthesized onset `min 30 (20% of vowel duration)`. -/
theorem cvStepZh_c6 (wr : List (ℚ × ℚ)) (l : List Iv) (syl : SylZh) (n : ℕ)
    (h : cvStepZh wr l = (some syl, n)) (hpos : posTier l = true) :
    c6okZh syl = true := by
  obtain ⟨x, rest, hl, -, hcase⟩ := cvStepZh_char wr l syl n h
  subst hl
  have hxpos : x.minTime < x.maxTime := posTier_mem hpos (by simp)
  rcases hcase with ⟨-, y, rest2, hrest, -, -, h2⟩ | ⟨hconsF, h2⟩
  · subst hrest
    have hcd0 : ¬ x.maxTime * 1000 - x.minTime * 1000 = 0 := by
      intro hz; linarith
    rcases cvMedialZh_char wr x (some x) y _ 1 rest2 syl n h2 with
      ⟨-, z, rest2', -, -, -, h3⟩ | ⟨-, h3⟩
    all_goals
      obtain ⟨-, h4⟩ := cvVowelZh_char _ _ _ _ _ _ _ _ _ _ h3
      rw [if_neg hcd0] at h4
      obtain ⟨-, hcons', -, -, hss, hcd, -⟩ := cvCodaZh_char _ _ _ _ _ _ _ _ _ _ h4
      simp only [c6okZh, hcons']
      rw [decide_eq_true_eq, hss, hcd]
      ring
  · have hnm : CHINESE_MEDIALS.contains (stripTone x.mark.trim) = false :=
      not_medial_of_not_consonant _ hconsF
    rcases cvMedialZh_char wr x none x 0 0 rest syl n h2 with
      ⟨hm, -, -, -, -, -, -⟩ | ⟨-, h3⟩
    · rw [hnm] at hm; simp at hm
    · obtain ⟨-, h4⟩ := cvVowelZh_char _ _ _ _ _ _ _ _ _ _ h3
      rw [if_pos rfl] at h4
      obtain ⟨-, hcons', -, hvow, hss, hcd, -⟩ := cvCodaZh_char _ _ _ _ _ _ _ _ _ _ h4
      simp only [c6okZh, hcons']
      rw [decide_eq_true_eq, hcd, hvow]
      congr 1
      ring

/-- C6 facts for one `_extract_vc_pairs` parse step. -/
theorem vcStep_c6 (l : List Iv) (syl : SylVcRaw) (n : ℕ)
    (h : vcStep l = (some syl, n)) (hwf : wfTier l = true)
    (hpos : posTier l = true) : c6okVc syl = true := by
  cases l with
  | nil => simp [vcStep] at h
  | cons x rest =>
    unfold vcStep at h
    dsimp only at h
    have hx : x.minTime ≤ x.maxTime := wfTier_head hwf
    have hxpos : x.minTime < x.maxTime := posTier_mem hpos (by simp)
    by_cases hskip : SKIP_MARKS.contains x.mark.trim = true
    · rw [if_pos hskip] at h; simp at h
    · rw [if_neg hskip] at h
      by_cases hcons : is_consonant x.mark.trim .zh = true
      · rw [if_pos hcons] at h
        cases rest with
        | nil => dsimp only at h; simp at h
        | cons y rest2 =>
          dsimp only at h
          by_cases hy : SKIP_MARKS.contains y.mark.trim = true
          · rw [if_neg (not_not_intro hy)] at h; simp at h
          · rw [if_pos hy] at h
            have hxy := wfTier_link hwf
            have hyy := wfTier_head (wfTier_tail hwf)
            obtain ⟨h1, -, -, -, h5, h6, -, -, -⟩ :=
              vcMedialStage_full (x :: y :: rest2) x (some x) y (y.minTime * 1000)
                (y.maxTime * 1000) (x.maxTime * 1000 - x.minTime * 1000) 1 rest2
                syl n h (wfTier_tail (wfTier_tail hwf))
                (fun iv hiv => by
                  have := wfTier_le (wfTier_tail hwf) iv hiv
                  linarith)
                (by linarith) hx rfl
            rw [if_neg (by intro hz; linarith)] at h6
            simp only [c6okVc, h1.2.1]
            rw [decide_eq_true_eq, h5, h6]
            ring
      · rw [if_neg hcons] at h
        have hconsF : is_consonant x.mark.trim .zh = false := by simpa using hcons
        have hnm : CHINESE_MEDIALS.contains (stripTone x.mark.trim) = false :=
          not_medial_of_not_consonant _ hconsF
        obtain ⟨h1, -, -, -, h5, h6, -, -, -⟩ :=
          vcMedialStage_full (x :: rest) x none x (x.minTime * 1000)
            (x.maxTime * 1000) 0 0 rest syl n h (wfTier_tail hwf)
            (fun iv hiv => wfTier_le hwf iv hiv) (by linarith) hx rfl
        obtain ⟨hmn, hveq⟩ := h1.2.2 hnm
        rw [if_pos rfl] at h6
        simp only [c6okVc, h1.2.1]
        rw [decide_eq_true_eq, h6, hveq]
        congr 1
        ring

/-- C4 facts for one Chinese CV step: every grouped phone beyond the
anchor passed the `same_word` test. -/
theorem cvStepZh_c4 (wr : List (ℚ × ℚ)) (l : List Iv) (syl : SylZh) (n : ℕ)
    (h : cvStepZh wr l = (some syl, n)) : c4okZh wr syl = true := by
  obtain ⟨x, rest, hl, -, hcase⟩ := cvStepZh_char wr l syl n h
  subst hl
  rcases hcase with ⟨-, y, rest2, hrest, -, hswy, h2⟩ | ⟨hconsF, h2⟩
  · subst hrest
    rcases cvMedialZh_char wr x (some x) y _ 1 rest2 syl n h2 with
      ⟨-, z, rest2', -, -, hswz, h3⟩ | ⟨-, h3⟩
    · obtain ⟨-, h4⟩ := cvVowelZh_char _ _ _ _ _ _ _ _ _ _ h3
      obtain ⟨hanch', hcons', hmed', hvow', -, -, hcoda⟩ :=
        cvCodaZh_char _ _ _ _ _ _ _ _ _ _ h4
      rcases hcoda with ⟨hcnone, -, -⟩ | ⟨w, ws, -, hcsome, -, -, hsww⟩
      · simp only [c4okZh, hanch', hcons', hmed', hvow', hcnone]
        simp [hswy, hswz]
      · simp only [c4okZh, hanch', hcons', hmed', hvow', hcsome]
        simp [hswy, hswz, hsww]
    · obtain ⟨-, h4⟩ := cvVowelZh_char _ _ _ _ _ _ _ _ _ _ h3
      obtain ⟨hanch', hcons', hmed', hvow', -, -, hcoda⟩ :=
        cvCodaZh_char _ _ _ _ _ _ _ _ _ _ h4
      rcases hcoda with ⟨hcnone, -, -⟩ | ⟨w, ws, -, hcsome, -, -, hsww⟩
      · simp only [c4okZh, hanch', hcons', hmed', hvow', hcnone]
        simp [hswy]
      · simp only [c4okZh, hanch', hcons', hmed', hvow', hcsome]
        simp [hswy, hsww]
  · have hnm : CHINESE_MEDIALS.contains (stripTone x.mark.trim) = false :=
      not_medial_of_not_consonant _ hconsF
    rcases cvMedialZh_char wr x none x 0 0 rest syl n h2 with
      ⟨hm, -, -, -, -, -, -⟩ | ⟨-, h3⟩
    · rw [hnm] at hm; simp at hm
    · obtain ⟨-, h4⟩ := cvVowelZh_char _ _ _ _ _ _ _ _ _ _ h3
      obtain ⟨hanch', hcons', hmed', hvow', -, -, hcoda⟩ :=
        cvCodaZh_char _ _ _ _ _ _ _ _ _ _ h4
      rcases hcoda with ⟨hcnone, -, -⟩ | ⟨w, ws, -, hcsome, -, -, hsww⟩
      · simp only [c4okZh, hanch', hcons', hmed', hvow', hcnone]
        simp
      · simp only [c4okZh, hanch', hcons', hmed', hvow', hcsome]
        simp [hsww]

/-- C4 facts for one Japanese CV step. -/
theorem cvStepJa_c4 (wr : List (ℚ × ℚ)) (l : List Iv) (syl : SylJa) (n : ℕ)
    (h : cvStepJa wr l = (some syl, n)) : c4okJa wr syl = true := by
  cases l with
  | nil => simp [cvStepJa] at h
  | cons x rest =>
    unfold cvStepJa at h
    dsimp only at h
    by_cases hskip : SKIP_MARKS.contains x.mark.trim = true
    · rw [if_pos hskip] at h; simp at h
    · rw [if_neg hskip] at h
      by_cases hcons : is_consonant x.mark.trim .ja = true
      · rw [if_pos hcons] at h
        cases rest with
        | nil =>
          dsimp only at h
          have hsyl := (Option.some.inj (Prod.mk.inj h).1).symm
          subst hsyl
          rfl
        | cons y ys =>
          dsimp only at h
          split_ifs at h with hcond
          · have hsyl := (Option.some.inj (Prod.mk.inj h).1).symm
            subst hsyl
            simp only [c4okJa]
            exact hcond.2.2
          · have hsyl := (Option.some.inj (Prod.mk.inj h).1).symm
            subst hsyl
            rfl
      · rw [if_neg hcons] at h
        by_cases hvow : is_vowel x.mark.trim .ja = true
        · rw [if_pos hvow] at h
          have hsyl := (Option.some.inj (Prod.mk.inj h).1).symm
          subst hsyl
          rfl
        · rw [if_neg hvow] at h; simp at h

/-- Every entry emitted by the Chinese CV extractor on a well-formed
phones tier satisfies the (amended) envelope invariant. -/
theorem extract_cv_zh_inv (words phones : List Iv) (wav : String)
    (dur ratio : ℚ) (hira : Bool) (hwf : wfTier phones = true)
    (hr : 0 ≤ ratio) :
    entryInvAll (extract_cv_pairs_zh words phones wav dur hira ratio) := by
  intro e he
  unfold extract_cv_pairs_zh at he
  rw [List.mem_filterMap] at he
  obtain ⟨syl, hsyl, hconv⟩ := he
  have hb := cvParseZh_all (buildWordRanges words) (fun t => wfTier t = true)
    (fun s => 0 ≤ s.consonant_duration ∧
      s.syllable_start + s.consonant_duration ≤ s.syllable_end)
    (fun n t hq => wfTier_drop n t hq)
    (fun t hq s n hstep => cvStepZh_bounds _ t s n hstep hq)
    phones.length phones le_rfl hwf syl hsyl
  rcases hpin : syllable_to_pinyin (sylZhPhones syl) .zh hira with _ | a
  · rw [hpin] at hconv; simp at hconv
  · rw [hpin] at hconv
    dsimp only at hconv
    split_ifs at hconv with ha
    have he2 := (Option.some.inj hconv).symm
    subst he2
    exact calcOto_inv _ _ _ _ _ _ _ hb.1 (by linarith [hb.2]) hr

/-- Every entry emitted by the Japanese CV extractor on a well-formed
phones tier satisfies the (amended) envelope invariant. -/
theorem extract_cv_ja_inv (words phones : List Iv) (wav : String)
    (dur ratio : ℚ) (hira : Bool) (hwf : wfTier phones = true)
    (hr : 0 ≤ ratio) :
    entryInvAll (extract_cv_pairs_ja words phones wav dur hira ratio) := by
  intro e he
  unfold extract_cv_pairs_ja at he
  rw [List.mem_filterMap] at he
  obtain ⟨syl, hsyl, hconv⟩ := he
  have hb := cvParseJa_all (buildWordRanges words) (fun t => wfTier t = true)
    (fun s =>
      (∀ c v, s = .cv c (some v) → c.minTime ≤ c.maxTime ∧ c.maxTime ≤ v.maxTime) ∧
      (∀ c, s = .cv c none → c.minTime ≤ c.maxTime) ∧
      (∀ v, s = .vOnly v → v.minTime ≤ v.maxTime))
    (fun n t hq => wfTier_drop n t hq)
    (fun t hq s n hstep => cvStepJa_facts _ t s n hstep hq)
    phones.length phones le_rfl hwf syl hsyl
  exact sylJaEntry_inv wav dur ratio hira syl hr hb e hconv

/-- Every entry emitted by the VC extractor on a well-formed phones tier
satisfies the (amended) envelope invariant. -/
theorem extract_vc_inv (words phones : List Iv) (wav : String)
    (dur ro rv : ℚ) (hira : Bool) (sep : String)
    (hwf : wfTier phones = true) (hro : 0 ≤ ro) (hrv : 0 ≤ rv) :
    entryInvAll (extract_vc_pairs words phones wav dur .zh hira ro rv sep) := by
  unfold extract_vc_pairs
  dsimp only
  have hperelem : ∀ r ∈ vcParse phones,
      r.vowel_start ≤ r.vowel_end ∧ r.vowel_end = r.syllable_end :=
    vcParse_all (fun t => wfTier t = true)
      (fun s => s.vowel_start ≤ s.vowel_end ∧ s.vowel_end = s.syllable_end)
      (fun n t hq => wfTier_drop n t hq)
      (fun t hq s n hstep =>
        have hf := vcStep_full t s n hstep hq
        ⟨hf.1, hf.2.1⟩)
      phones.length phones le_rfl hwf
  apply mkVcEntries_inv wav dur ro rv sep hro hrv
  · intro s hs
    rw [List.mem_filterMap] at hs
    obtain ⟨raw, hraw, hconv⟩ := hs
    obtain ⟨hf1, hf2, -⟩ := toSylVc_fields raw s hconv
    rw [hf1, hf2]
    exact (hperelem raw hraw).1
  · have hpw0 := vcParse_pairwise phones.length phones le_rfl hwf
    have hpw : List.Pairwise
        (fun a b : SylVcRaw => a.vowel_end ≤ b.syllable_end) (vcParse phones) := by
      refine List.Pairwise.imp_of_mem ?_ hpw0
      intro a b ha hb hab
      rw [(hperelem a ha).2]
      exact hab
    refine pairwise_filterMap_vc ?_ (vcParse phones) hpw
    intro a b hab u hu v hv
    rw [(toSylVc_fields a u hu).2.1, (toSylVc_fields b v hv).2.2]
    exact hab

/-- The oto entry written by `_combine_and_save` satisfies the envelope
invariant: the consonant exemplar contributes `int(c_dur/1000*sr)`
samples, the crossfade consumes at most `lv - 1` samples of the vowel
exemplar, so the combined duration exceeds the stored preutterance. -/
theorem combined_entry_inv (wav a : String) (c_dur ratio : ℚ) (lv sr cf_ms : ℕ)
    (hc : 0 ≤ c_dur) (hr : 0 ≤ ratio) (hsr : 1 ≤ sr) (hlv : 2 ≤ lv) :
    entryInv (combined_entry wav a c_dur
      ((⌊c_dur * (sr : ℚ) / 1000⌋).toNat + lv -
        chooseCrossfadeSamples cf_ms sr (⌊c_dur * (sr : ℚ) / 1000⌋).toNat lv)
      sr ratio) := by
  have hsrQ : (0 : ℚ) < (sr : ℚ) := by
    have : (1 : ℚ) ≤ (sr : ℚ) := by exact_mod_cast hsr
    linarith
  have hq0 : (0 : ℚ) ≤ c_dur * (sr : ℚ) / 1000 := by positivity
  have hfl : ((⌊c_dur * (sr : ℚ) / 1000⌋).toNat : ℤ) = ⌊c_dur * (sr : ℚ) / 1000⌋ :=
    Int.toNat_of_nonneg (Int.floor_nonneg.mpr hq0)
  set lc : ℕ := (⌊c_dur * (sr : ℚ) / 1000⌋).toNat with hlc
  set cf : ℕ := chooseCrossfadeSamples cf_ms sr lc lv with hcf
  have hcfle : cf + 1 ≤ lv := by
    rw [hcf]
    unfold chooseCrossfadeSamples
    dsimp only
    split_ifs <;> omega
  have hlen : lc + 1 ≤ lc + lv - cf := by omega
  have hlenQ : ((lc : ℚ) + 1) ≤ ((lc + lv - cf : ℕ) : ℚ) := by
    have := (Nat.cast_le (α := ℚ)).mpr hlen
    push_cast at this ⊢
    linarith
  have hflt : c_dur * (sr : ℚ) / 1000 < (lc : ℚ) + 1 := by
    have h1 := Int.lt_floor_add_one (c_dur * (sr : ℚ) / 1000)
    have h2 : ((lc : ℕ) : ℚ) = ((⌊c_dur * (sr : ℚ) / 1000⌋ : ℤ) : ℚ) := by
      have h3 := congrArg (fun z : ℤ => (z : ℚ)) hfl
      push_cast at h3
      exact h3
    rw [h2]
    exact h1
  have hmul : c_dur * (sr : ℚ) < ((lc : ℚ) + 1) * 1000 :=
    (div_lt_iff₀ (by norm_num : (0:ℚ) < 1000)).mp hflt
  have htot : c_dur ≤ ((lc + lv - cf : ℕ) : ℚ) / (sr : ℚ) * 1000 := by
    rw [div_mul_eq_mul_div, le_div_iff₀ hsrQ]
    nlinarith
  refine ⟨rfl, ?_, ?_⟩
  · have h3 := round1_le c_dur
    simp only [combined_entry]
    linarith
  · exact round1_nonneg _ (mul_nonneg hc hr)

/-- C1 (amended): under a well-formed phones tier and nonnegative
overlap/offset ratios, every entry produced by the pipeline — simple CV
units (Chinese and Japanese), transition VC units, and the combined
synthesized unit — satisfies the envelope invariant in its stored
(rounded-to-one-decimal) form: `cutoff = round1 (-segment_duration)`,
`preutterance ≤ segment_duration + 0.05` (the rounding slack), and
`overlap ≥ 0`. -/
theorem c1_envelope_invariant (words phones : List Iv) (wav wavc a : String)
    (dur ratio ro rv c_dur : ℚ) (hira : Bool) (sep : String) (lv sr cf_ms : ℕ)
    (hwf : wfTier phones = true) (hr : 0 ≤ ratio) (hro : 0 ≤ ro) (hrv : 0 ≤ rv)
    (hc : 0 ≤ c_dur) (hsr : 1 ≤ sr) (hlv : 2 ≤ lv) :
    entryInvAll (extract_cv_pairs_zh words phones wav dur hira ratio) ∧
    entryInvAll (extract_cv_pairs_ja words phones wav dur hira ratio) ∧
    entryInvAll (extract_vc_pairs words phones wav dur .zh hira ro rv sep) ∧
    entryInv (combined_entry wavc a c_dur
      ((⌊c_dur * (sr : ℚ) / 1000⌋).toNat + lv -
        chooseCrossfadeSamples cf_ms sr (⌊c_dur * (sr : ℚ) / 1000⌋).toNat lv)
      sr ratio) :=
  ⟨extract_cv_zh_inv words phones wav dur ratio hira hwf hr,
   extract_cv_ja_inv words phones wav dur ratio hira hwf hr,
   extract_vc_inv words phones wav dur ro rv hira sep hwf hro hrv,
   combined_entry_inv wavc a c_dur ratio lv sr cf_ms hc hr hsr hlv⟩

set_option maxRecDepth 1000000 in
/-- Witness for C1 on a concrete pipeline input. -/
theorem c1_envelope_invariant_witness :
    wfTier [⟨"a", 0, 1/5⟩] = true ∧ (0:ℚ) ≤ 3/10 ∧ (0:ℚ) ≤ 1/2 ∧
    (0:ℚ) ≤ 50 ∧ (1:ℕ) ≤ 1 ∧ (2:ℕ) ≤ 2 ∧
    (entryInvAll (extract_cv_pairs_zh [] [⟨"a", 0, 1/5⟩] "w" 300 false (3/10)) ∧
     entryInvAll (extract_cv_pairs_ja [] [⟨"a", 0, 1/5⟩] "w" 300 false (3/10)) ∧
     entryInvAll (extract_vc_pairs [] [⟨"a", 0, 1/5⟩] "w" 300 .zh false (3/10) (1/2) " ") ∧
     entryInv (combined_entry "w" "a" 50
       ((⌊(50:ℚ) * ((1:ℕ) : ℚ) / 1000⌋).toNat + 2 -
         chooseCrossfadeSamples 0 1 (⌊(50:ℚ) * ((1:ℕ) : ℚ) / 1000⌋).toNat 2)
       1 (3/10))) :=
  ⟨by with_unfolding_all decide, by norm_num, by norm_num, by norm_num,
   le_rfl, le_rfl,
   c1_envelope_invariant [] [⟨"a", 0, 1/5⟩] "w" "w" "a" 300 (3/10) (3/10) (1/2)
     50 false " " 2 1 0 (by with_unfolding_all decide) (by norm_num)
     (by norm_num) (by norm_num) (by norm_num) le_rfl le_rfl⟩

set_option maxRecDepth 1000000 in
/-- The original C1 is false: the calculator stores `cutoff` rounded to
one decimal while `segment_duration` is stored exactly, so off the 0.1 ms
grid `cutoff ≠ -segment_duration`; a vowel ending at 200.13 ms yields
cutoff -200.1 but segment_duration 200.13. -/
theorem c1_counterexample :
    (extract_cv_pairs_ja [] [⟨"a", 0, 20013/100000⟩] "w" 300 false (3/10)).any
      (fun e => decide (e.cutoff ≠ -e.segment_duration)) = true := by
  with_unfolding_all decide

/-- C4 (amended): in CV syllable segmentation (both language branches)
every decision to group a phone beyond the anchor requires `same_word`
to hold, but VC transition-pair extraction never consults the words
tier: its output is identical for any two words tiers. -/
theorem c4_same_word_gating (wr : List (ℚ × ℚ)) (l : List Iv)
    (words words' phones : List Iv) (wav : String) (dur : ℚ) (lang : Lang)
    (hira : Bool) (ro rv : ℚ) (sep : String) :
    (cvParseZh wr l).all (c4okZh wr) = true ∧
    (cvParseJa wr l).all (c4okJa wr) = true ∧
    extract_vc_pairs words phones wav dur lang hira ro rv sep =
      extract_vc_pairs words' phones wav dur lang hira ro rv sep := by
  refine ⟨?_, ?_, rfl⟩
  · rw [List.all_eq_true]
    intro syl hs
    exact cvParseZh_all wr (fun _ => True) (fun s => c4okZh wr s = true)
      (fun _ _ _ => trivial)
      (fun t _ s n hstep => cvStepZh_c4 wr t s n hstep)
      l.length l le_rfl trivial syl hs
  · rw [List.all_eq_true]
    intro syl hs
    exact cvParseJa_all wr (fun _ => True) (fun s => c4okJa wr s = true)
      (fun _ _ _ => trivial)
      (fun t _ s n hstep => cvStepJa_c4 wr t s n hstep)
      l.length l le_rfl trivial syl hs

set_option maxRecDepth 1000000 in
/-- The original C4 is false for VC extraction: with words w1=[0,0.15)
and w2=[0.15,0.3), the phones a|k|a straddle the word boundary (k ends
w1, a starts w2 — `same_word` is false between them), yet the VC
extractor still groups k with the second a into a syllable and emits the
transition entry "a g". -/
theorem c4_counterexample :
    (extract_vc_pairs [⟨"w1", 0, 3/20⟩, ⟨"w2", 3/20, 3/10⟩]
        [⟨"a", 0, 1/10⟩, ⟨"k", 1/10, 3/20⟩, ⟨"a", 3/20, 3/10⟩] "w" 300 .zh false
        (3/10) (1/2) " ").length = 1 ∧
    sameWord (buildWordRanges [⟨"w1", 0, 3/20⟩, ⟨"w2", 3/20, 3/10⟩])
      (1/10) (3/20) = false := by
  with_unfolding_all decide

/-- C5 (amended): when the Vowel state cannot be reached, the partially
built phone sequence is discarded and no syllable is emitted, but the
cursor advance depends on where the attempt failed rather than always
being one: a candidate phone examined and rejected by the vowel test is
skipped (the cursor lands one past it — 1 with nothing consumed beyond
the anchor, 2 after a consumed consonant, 3 after consonant and medial),
while a gating failure (next phone skip-marked, in a different word, or
the tier ending) leaves the cursor just past the consumed phones (1
after a consonant, 2 after consonant and medial), so a gated-out phone
is re-examined as the next anchor. -/
theorem c5_failure_advance (wr : List (ℚ × ℚ)) :
    (∀ x rest, SKIP_MARKS.contains x.mark.trim = false →
      is_consonant x.mark.trim .zh = false → is_vowel x.mark.trim .zh = false →
      cvStepZh wr (x :: rest) = (none, 1) ∧
      cvParseZh wr (x :: rest) = cvParseZh wr rest) ∧
    (∀ x y rest, SKIP_MARKS.contains x.mark.trim = false →
      is_consonant x.mark.trim .zh = true →
      (SKIP_MARKS.contains y.mark.trim = true ∨
        sameWord wr x.minTime y.minTime = false) →
      cvStepZh wr (x :: y :: rest) = (none, 1) ∧
      cvParseZh wr (x :: y :: rest) = cvParseZh wr (y :: rest)) ∧
    (∀ x, SKIP_MARKS.contains x.mark.trim = false →
      is_consonant x.mark.trim .zh = true →
      cvStepZh wr [x] = (none, 1) ∧ cvParseZh wr [x] = cvParseZh wr []) ∧
    (∀ x y rest, SKIP_MARKS.contains x.mark.trim = false →
      is_consonant x.mark.trim .zh = true →
      SKIP_MARKS.contains y.mark.trim = false →
      sameWord wr x.minTime y.minTime = true →
      CHINESE_MEDIALS.contains (stripTone y.mark.trim) = false →
      is_vowel y.mark.trim .zh = false →
      cvStepZh wr (x :: y :: rest) = (none, 2) ∧
      cvParseZh wr (x :: y :: rest) = cvParseZh wr rest) ∧
    (∀ x y z rest, SKIP_MARKS.contains x.mark.trim = false →
      is_consonant x.mark.trim .zh = true →
      SKIP_MARKS.contains y.mark.trim = false →
      sameWord wr x.minTime y.minTime = true →
      CHINESE_MEDIALS.contains (stripTone y.mark.trim) = true →
      (SKIP_MARKS.contains z.mark.trim = true ∨
        sameWord wr x.minTime z.minTime = false) →
      cvStepZh wr (x :: y :: z :: rest) = (none, 2) ∧
      cvParseZh wr (x :: y :: z :: rest) = cvParseZh wr (z :: rest)) ∧
    (∀ x y, SKIP_MARKS.contains x.mark.trim = false →
      is_consonant x.mark.trim .zh = true →
      SKIP_MARKS.contains y.mark.trim = false →
      sameWord wr x.minTime y.minTime = true →
      CHINESE_MEDIALS.contains (stripTone y.mark.trim) = true →
      cvStepZh wr [x, y] = (none, 2) ∧ cvParseZh wr [x, y] = cvParseZh wr []) ∧
    (∀ x y z rest, SKIP_MARKS.contains x.mark.trim = false →
      is_consonant x.mark.trim .zh = true →
      SKIP_MARKS.contains y.mark.trim = false →
      sameWord wr x.minTime y.minTime = true →
      CHINESE_MEDIALS.contains (stripTone y.mark.trim) = true →
      SKIP_MARKS.contains z.mark.trim = false →
      sameWord wr x.minTime z.minTime = true →
      is_vowel z.mark.trim .zh = false →
      cvStepZh wr (x :: y :: z :: rest) = (none, 3) ∧
      cvParseZh wr (x :: y :: z :: rest) = cvParseZh wr rest) := by
  refine ⟨?_, ?_, ?_, ?_, ?_, ?_, ?_⟩
  · intro x rest hskipx hconsF hvowF
    have h1 : cvStepZh wr (x :: rest) = (none, 1) := by
      unfold cvStepZh
      dsimp only
      rw [if_neg (show ¬ SKIP_MARKS.contains x.mark.trim = true by rw [hskipx]; simp),
          if_neg (show ¬ is_consonant x.mark.trim .zh = true by rw [hconsF]; simp)]
      unfold cvMedialZh
      rw [if_neg (show ¬ CHINESE_MEDIALS.contains (stripTone x.mark.trim) = true by
        rw [not_medial_of_not_consonant _ hconsF]; simp)]
      unfold cvVowelZh
      rw [if_neg (show ¬ is_vowel x.mark.trim .zh = true by rw [hvowF]; simp)]
    refine ⟨h1, ?_⟩
    simp only [cvParseZh]
    rw [h1]
    simp [cvParseZh]
  · intro x y rest hskipx hcons hgate
    have h1 : cvStepZh wr (x :: y :: rest) = (none, 1) := by
      unfold cvStepZh
      dsimp only
      rw [if_neg (show ¬ SKIP_MARKS.contains x.mark.trim = true by rw [hskipx]; simp),
          if_pos hcons,
          if_neg (show ¬ (¬ SKIP_MARKS.contains y.mark.trim = true ∧
              sameWord wr x.minTime y.minTime = true) from fun hc => by
            rcases hgate with hg | hg
            · exact hc.1 hg
            · exact absurd hc.2 (by simp [hg]))]
    refine ⟨h1, ?_⟩
    simp only [cvParseZh]
    rw [h1]
    simp [cvParseZh]
  · intro x hskipx hcons
    have h1 : cvStepZh wr [x] = (none, 1) := by
      unfold cvStepZh
      dsimp only
      rw [if_neg (show ¬ SKIP_MARKS.contains x.mark.trim = true by rw [hskipx]; simp),
          if_pos hcons]
    refine ⟨h1, ?_⟩
    simp only [cvParseZh]
    rw [h1]
    simp [cvParseZh]
  · intro x y rest hskipx hcons hskipy hsw hmed hvow
    have h1 : cvStepZh wr (x :: y :: rest) = (none, 2) := by
      unfold cvStepZh
      dsimp only
      rw [if_neg (show ¬ SKIP_MARKS.contains x.mark.trim = true by rw [hskipx]; simp),
          if_pos hcons,
          if_pos (show ¬ SKIP_MARKS.contains y.mark.trim = true ∧
            sameWord wr x.minTime y.minTime = true from ⟨by rw [hskipy]; simp, hsw⟩)]
      unfold cvMedialZh
      rw [if_neg (show ¬ CHINESE_MEDIALS.contains (stripTone y.mark.trim) = true by
        rw [hmed]; simp)]
      unfold cvVowelZh
      rw [if_neg (show ¬ is_vowel y.mark.trim .zh = true by rw [hvow]; simp)]
    refine ⟨h1, ?_⟩
    simp only [cvParseZh]
    rw [h1]
    simp [cvParseZh]
  · intro x y z rest hskipx hcons hskipy hswy hmed hgate
    have h1 : cvStepZh wr (x :: y :: z :: rest) = (none, 2) := by
      unfold cvStepZh
      dsimp only
      rw [if_neg (show ¬ SKIP_MARKS.contains x.mark.trim = true by rw [hskipx]; simp),
          if_pos hcons,
          if_pos (show ¬ SKIP_MARKS.contains y.mark.trim = true ∧
            sameWord wr x.minTime y.minTime = true from ⟨by rw [hskipy]; simp, hswy⟩)]
      unfold cvMedialZh
      rw [if_pos hmed]
      dsimp only
      rw [if_neg (show ¬ (¬ SKIP_MARKS.contains z.mark.trim = true ∧
          sameWord wr x.minTime z.minTime = true) from fun hc => by
        rcases hgate with hg | hg
        · exact hc.1 hg
        · exact absurd hc.2 (by simp [hg]))]
    refine ⟨h1, ?_⟩
    simp only [cvParseZh]
    rw [h1]
    simp [cvParseZh]
  · intro x y hskipx hcons hskipy hswy hmed
    have h1 : cvStepZh wr [x, y] = (none, 2) := by
      unfold cvStepZh
      dsimp only
      rw [if_neg (show ¬ SKIP_MARKS.contains x.mark.trim = true by rw [hskipx]; simp),
          if_pos hcons,
          if_pos (show ¬ SKIP_MARKS.contains y.mark.trim = true ∧
            sameWord wr x.minTime y.minTime = true from ⟨by rw [hskipy]; simp, hswy⟩)]
      unfold cvMedialZh
      rw [if_pos hmed]
    refine ⟨h1, ?_⟩
    simp only [cvParseZh]
    rw [h1]
    simp [cvParseZh]
  · intro x y z rest hskipx hcons hskipy hswy hmed hskipz hswz hvow
    have h1 : cvStepZh wr (x :: y :: z :: rest) = (none, 3) := by
      unfold cvStepZh
      dsimp only
      rw [if_neg (show ¬ SKIP_MARKS.contains x.mark.trim = true by rw [hskipx]; simp),
          if_pos hcons,
          if_pos (show ¬ SKIP_MARKS.contains y.mark.trim = true ∧
            sameWord wr x.minTime y.minTime = true from ⟨by rw [hskipy]; simp, hswy⟩)]
      unfold cvMedialZh
      rw [if_pos hmed]
      dsimp only
      rw [if_pos (show ¬ SKIP_MARKS.contains z.mark.trim = true ∧
          sameWord wr x.minTime z.minTime = true from ⟨by rw [hskipz]; simp, hswz⟩)]
      unfold cvVowelZh
      rw [if_neg (show ¬ is_vowel z.mark.trim .zh = true by rw [hvow]; simp)]
    refine ⟨h1, ?_⟩
    simp only [cvParseZh]
    rw [h1]
    simp [cvParseZh]

set_option maxRecDepth 1000000 in
/-- Witness for C5: the vowel-test failure k|t (same word) advances by
two, while the gating failure k|a, with k and a aligned to different
words, advances by one and the parse re-examines a as the next anchor. -/
theorem c5_failure_advance_witness :
    (SKIP_MARKS.contains (Iv.mk "k" 0 1).mark.trim = false ∧
     is_consonant (Iv.mk "k" 0 1).mark.trim .zh = true ∧
     SKIP_MARKS.contains (Iv.mk "t" 1 2).mark.trim = false ∧
     sameWord [] (Iv.mk "k" 0 1).minTime (Iv.mk "t" 1 2).minTime = true ∧
     CHINESE_MEDIALS.contains (stripTone (Iv.mk "t" 1 2).mark.trim) = false ∧
     is_vowel (Iv.mk "t" 1 2).mark.trim .zh = false ∧
     sameWord [(0, 1), (1, 2)] (Iv.mk "k" 0 1).minTime
       (Iv.mk "a" 1 2).minTime = false) ∧
    (cvStepZh [] [⟨"k", 0, 1⟩, ⟨"t", 1, 2⟩] = (none, 2) ∧
     cvParseZh [] [⟨"k", 0, 1⟩, ⟨"t", 1, 2⟩] = cvParseZh [] []) ∧
    (cvStepZh [(0, 1), (1, 2)] [⟨"k", 0, 1⟩, ⟨"a", 1, 2⟩] = (none, 1) ∧
     cvParseZh [(0, 1), (1, 2)] [⟨"k", 0, 1⟩, ⟨"a", 1, 2⟩] =
       cvParseZh [(0, 1), (1, 2)] [⟨"a", 1, 2⟩]) :=
  ⟨⟨by with_unfolding_all decide, by with_unfolding_all decide,
    by with_unfolding_all decide, by with_unfolding_all decide,
    by with_unfolding_all decide, by with_unfolding_all decide,
    by with_unfolding_all decide⟩,
   (c5_failure_advance []).2.2.2.1 ⟨"k", 0, 1⟩ ⟨"t", 1, 2⟩ []
     (by with_unfolding_all decide) (by with_unfolding_all decide)
     (by with_unfolding_all decide) (by with_unfolding_all decide)
     (by with_unfolding_all decide) (by with_unfolding_all decide),
   (c5_failure_advance [(0, 1), (1, 2)]).2.1 ⟨"k", 0, 1⟩ ⟨"a", 1, 2⟩ []
     (by with_unfolding_all decide) (by with_unfolding_all decide)
     (Or.inr (by with_unfolding_all decide))⟩

set_option maxRecDepth 1000000 in
/-- The original C5 is false: on k|k|a the first syllable attempt fails
at the Vowel state and the cursor advances by two, skipping the second k;
advancing by exactly one would instead parse the syllable "ka". -/
theorem c5_counterexample :
    cvStepZh [] [⟨"k", 0, 1⟩, ⟨"k", 1, 2⟩, ⟨"a", 2, 3⟩] = (none, 2) ∧
    cvParseZh [] [⟨"k", 0, 1⟩, ⟨"k", 1, 2⟩, ⟨"a", 2, 3⟩] ≠
      cvParseZh [] [⟨"k", 1, 2⟩, ⟨"a", 2, 3⟩] := by
  with_unfolding_all decide

/-- C6: on a well-formed phones tier with strictly positive phone
lengths, every segmented syllable (CV parse and VC parse alike) has
`consonant_end` equal to the consumed consonant phone's end time, and a
zero-initial syllable gets the synthesized onset duration
`min 30 (20% of the vowel phone's duration)`. -/
theorem c6_onset_duration (wr : List (ℚ × ℚ)) (l : List Iv)
    (hwf : wfTier l = true) (hpos : posTier l = true) :
    (cvParseZh wr l).all c6okZh = true ∧ (vcParse l).all c6okVc = true := by
  constructor
  · rw [List.all_eq_true]
    intro syl hs
    exact cvParseZh_all wr (fun t => posTier t = true) (fun s => c6okZh s = true)
      (fun n t hq => posTier_drop n t hq)
      (fun t hq s n hstep => cvStepZh_c6 wr t s n hstep hq)
      l.length l le_rfl hpos syl hs
  · rw [List.all_eq_true]
    intro syl hs
    exact vcParse_all (fun t => wfTier t = true ∧ posTier t = true)
      (fun s => c6okVc s = true)
      (fun n t hq => ⟨wfTier_drop n t hq.1, posTier_drop n t hq.2⟩)
      (fun t hq s n hstep => vcStep_c6 t s n hstep hq.1 hq.2)
      l.length l le_rfl ⟨hwf, hpos⟩ syl hs

set_option maxRecDepth 1000000 in
/-- Witness for C6 on k|a|a: one consonant-initial and one zero-initial
syllable in each parse. -/
theorem c6_onset_duration_witness :
    wfTier [⟨"k", 0, 1/10⟩, ⟨"a", 1/10, 1/5⟩, ⟨"a", 1/5, 3/10⟩] = true ∧
    posTier [⟨"k", 0, 1/10⟩, ⟨"a", 1/10, 1/5⟩, ⟨"a", 1/5, 3/10⟩] = true ∧
    ((cvParseZh [] [⟨"k", 0, 1/10⟩, ⟨"a", 1/10, 1/5⟩, ⟨"a", 1/5, 3/10⟩]).all
        c6okZh = true ∧
     (vcParse [⟨"k", 0, 1/10⟩, ⟨"a", 1/10, 1/5⟩, ⟨"a", 1/5, 3/10⟩]).all
        c6okVc = true) :=
  ⟨by with_unfolding_all decide, by with_unfolding_all decide,
   c6_onset_duration [] [⟨"k", 0, 1/10⟩, ⟨"a", 1/10, 1/5⟩, ⟨"a", 1/5, 3/10⟩]
     (by with_unfolding_all decide) (by with_unfolding_all decide)⟩

end Jinriki


